import Mathlib

/-!
Verification of `OccupancyGridUtils.py`: a shallow embedding of
`get_map_img` (reshape + optional crop of an occupancy grid) and
`merge_maps` (merging several occupancy grids into one world frame),
together with theorems settling the specification claims.

World coordinates, resolutions and origins are modelled as exact
rationals; Python runtime failures (IndexError, NameError,
ZeroDivisionError, OverflowError, ValueError) are modelled with an
`Except` monad.
-/

namespace OccGrid

/-- Python's built-in `round` on an exact value: nearest integer, ties to even. -/
def pyRound (q : ℚ) : ℤ :=
  if q - ⌊q⌋ < 1/2 then ⌊q⌋
  else if 1/2 < q - ⌊q⌋ then ⌊q⌋ + 1
  else if ⌊q⌋ % 2 = 0 then ⌊q⌋ else ⌊q⌋ + 1

/-- Python runtime errors that the two functions can raise. -/
inductive PyErr where
  | indexError
  | nameError
  | zeroDivisionError
  | overflowError
  | valueError
deriving Repr, DecidableEq

instance {ε α : Type} [DecidableEq ε] [DecidableEq α] : DecidableEq (Except ε α)
  | .error e1, .error e2 =>
    if h : e1 = e2 then .isTrue (by rw [h])
    else .isFalse (by intro hc; cases hc; exact h rfl)
  | .error _, .ok _ => .isFalse (by intro hc; cases hc)
  | .ok _, .error _ => .isFalse (by intro hc; cases hc)
  | .ok a1, .ok a2 =>
    if h : a1 = a2 then .isTrue (by rw [h])
    else .isFalse (by intro hc; cases hc; exact h rfl)

/-! ### The `grid` dictionary of `merge_maps`

A Python `dict` keyed by exact world coordinates, modelled as an
association list in insertion order (updating an existing key keeps its
position, as in CPython). -/

/-- First value stored under key `p` (Python `grid[p]` / `p in grid`). -/
def lookupDict (p : ℚ × ℚ) : List ((ℚ × ℚ) × Bool) → Option Bool
  | [] => none
  | e :: rest => if e.1 = p then some e.2 else lookupDict p rest

/-- `grid[p] = True` (line 131): overwrites in place, or appends a new entry. -/
def dictSetTrue (g : List ((ℚ × ℚ) × Bool)) (p : ℚ × ℚ) : List ((ℚ × ℚ) × Bool) :=
  if (lookupDict p g).isSome then g.map (fun e => if e.1 = p then (p, true) else e)
  else g ++ [(p, true)]

/-- `if p not in grid: grid[p] = False` (lines 136-137). -/
def dictSetFreeIfAbsent (g : List ((ℚ × ℚ) × Bool)) (p : ℚ × ℚ) :
    List ((ℚ × ℚ) × Bool) :=
  if (lookupDict p g).isSome then g else g ++ [(p, false)]

/-! ### The mutable state of the merge loop -/

/-- State of `merge_maps` while scanning sources: the coordinate dictionary
and the four running bounds.  `none` stands for the float sentinel
(`inf` for the minima, `-inf` for the maxima). -/
structure MState where
  grid : List ((ℚ × ℚ) × Bool)
  min_x : Option ℚ
  min_y : Option ℚ
  max_x : Option ℚ
  max_y : Option ℚ
deriving Repr, DecidableEq

def initState : MState := ⟨[], none, none, none, none⟩

/-- Lines 138-145 for one axis: `if v < mn: mn = v  elif v > mx: mx = v`,
with `none` playing `inf` (for `mn`) and `-inf` (for `mx`). -/
def updBounds : Option ℚ → Option ℚ → ℚ → Option ℚ × Option ℚ
  | none, mx, v => (some v, mx)
  | some m, mx, v =>
    if v < m then (some v, mx)
    else
      match mx with
      | none => (some m, some v)
      | some M => if M < v then (some m, some v) else (some m, some M)

/-- Effect of one inner-loop iteration (lines 125-145) on the state, given the
cell value and its world coordinates.  A `-1` cell is skipped entirely. -/
def visitStep (threshold : ℤ) (st : MState) (e : ℤ × ℚ × ℚ) : MState :=
  if e.1 = -1 then st
  else
    let g :=
      if threshold < e.1 then dictSetTrue st.grid (e.2.1, e.2.2)
      else dictSetFreeIfAbsent st.grid (e.2.1, e.2.2)
    let ux := updBounds st.min_x st.max_x e.2.1
    let uy := updBounds st.min_y st.max_y e.2.2
    ⟨g, ux.1, uy.1, ux.2, uy.2⟩

/-- Pure fold of `visitStep` over a visit sequence. -/
def visitFold (threshold : ℤ) (st : MState) (l : List (ℤ × ℚ × ℚ)) : MState :=
  l.foldl (visitStep threshold) st

/-! ### Iteration order -/

/-- `for a in range(m): for b in range(n)` as the list of visited pairs. -/
def pairs (m n : ℕ) : List (ℕ × ℕ) :=
  (List.range m).flatMap (fun a => (List.range n).map (fun b => (a, b)))

/-- The visit sequence of one source (lines 123-135): cell value
`occ[i + j*width]` and world coordinates `(i*res + ox, j*res + oy)`,
for `i` over columns (outer) and `j` over rows (inner). -/
def cellVisits (occ : List ℤ) (res ox oy : ℚ) (height width : ℕ) :
    List (ℤ × ℚ × ℚ) :=
  (pairs width height).map
    (fun ij => (occ.getD (ij.1 + ij.2 * width) 0,
      ((ij.1 : ℚ) * res + ox, (ij.2 : ℚ) * res + oy)))

/-! ### The merge loop with Python errors -/

/-- One inner-loop iteration, with `occupancy[i + j*width]` raising
`IndexError` when out of range. -/
def processCell (threshold : ℤ) (occ : List ℤ) (res ox oy : ℚ) (width : ℕ)
    (st : MState) (ij : ℕ × ℕ) : Except PyErr MState :=
  match occ.get? (ij.1 + ij.2 * width) with
  | none => .error .indexError
  | some v =>
      .ok (visitStep threshold st (v, ((ij.1 : ℚ) * res + ox, (ij.2 : ℚ) * res + oy)))

def processCells (threshold : ℤ) (occ : List ℤ) (res ox oy : ℚ) (width : ℕ) :
    List (ℕ × ℕ) → MState → Except PyErr MState
  | [], st => .ok st
  | ij :: rest, st =>
    match processCell threshold occ res ox oy width st ij with
    | .error e => .error e
    | .ok st' => processCells threshold occ res ox oy width rest st'

/-- Lines 123-145 for one source; `size = (height, width)`. -/
def processSource (threshold : ℤ) (occ : List ℤ) (res : ℚ) (origin : ℚ × ℚ)
    (size : ℕ × ℕ) (st : MState) : Except PyErr MState :=
  processCells threshold occ res origin.1 origin.2 size.2 (pairs size.2 size.1) st

/-- The outer loop over `range(len(maps_data))` (lines 118-145).  Alongside the
state it carries the Python variable `resolution` (`none` = not yet bound);
indexing a too-short input list raises `IndexError`. -/
def mergeLoop (threshold : ℤ) (maps_data : List (List ℤ)) (maps_resolution : List ℚ)
    (maps_origin : List (ℚ × ℚ)) (maps_size : List (ℕ × ℕ)) :
    List ℕ → MState × Option ℚ → Except PyErr (MState × Option ℚ)
  | [], acc => .ok acc
  | index :: rest, acc =>
    match maps_data.get? index, maps_resolution.get? index,
        maps_origin.get? index, maps_size.get? index with
    | some occ, some res, some org, some sz =>
      match processSource threshold occ res org sz acc.1 with
      | .error e => .error e
      | .ok st' =>
        mergeLoop threshold maps_data maps_resolution maps_origin maps_size rest (st', some res)
    | _, _, _, _ => .error .indexError

/-- State (and last bound `resolution`) after the scanning phase of
`merge_maps`. -/
def mergeState (maps_data : List (List ℤ)) (maps_resolution : List ℚ)
    (maps_origin : List (ℚ × ℚ)) (maps_size : List (ℕ × ℕ)) (threshold : ℤ) :
    Except PyErr (MState × Option ℚ) :=
  mergeLoop threshold maps_data maps_resolution maps_origin maps_size
    (List.range maps_data.length) (initState, none)

/-! ### Rasterization (lines 146-153) -/

/-- Numpy integer indexing: wraps one negative step, else `IndexError`. -/
def npIndex (n : ℕ) (i : ℤ) : Option ℕ :=
  if 0 ≤ i ∧ i < (n : ℤ) then some i.toNat
  else if -(n : ℤ) ≤ i ∧ i < 0 then some (i + n).toNat
  else none

/-- `img[r, c] = v` on a 2-D array; `none` models numpy's `IndexError`. -/
def set2d (img : List (List ℤ)) (r c : ℤ) (v : ℤ) : Option (List (List ℤ)) :=
  match npIndex img.length r with
  | none => none
  | some ri =>
    match npIndex (img.getD ri []).length c with
    | none => none
    | some ci => some (img.set ri ((img.getD ri []).set ci v))

/-- Lines 149-152: write each dictionary entry into the output image, in
insertion order, at `row = round((y-o_y)/res)`, `col = round((x-o_x)/res)`. -/
def rasterize (res ox oy : ℚ) : List ((ℚ × ℚ) × Bool) → List (List ℤ) →
    Except PyErr (List (List ℤ))
  | [], img => .ok img
  | e :: rest, img =>
    match set2d img (pyRound ((e.1.2 - oy) / res)) (pyRound ((e.1.1 - ox) / res))
        (if e.2 then 100 else 0) with
    | none => .error .indexError
    | some img' => rasterize res ox oy rest img'

/-- `merge_maps` (lines 90-153).  Returns only the merged 2-D array, exactly as
the source does; `resolution` is the last value bound in the loop. -/
def merge_maps (maps_data : List (List ℤ)) (maps_resolution : List ℚ)
    (maps_origin : List (ℚ × ℚ)) (maps_size : List (ℕ × ℕ)) (threshold : ℤ) :
    Except PyErr (List (List ℤ)) :=
  match mergeState maps_data maps_resolution maps_origin maps_size threshold with
  | .error e => .error e
  | .ok (_, none) => .error .nameError
  | .ok (st, some resolution) =>
    if resolution = 0 then .error .zeroDivisionError
    else
      match st.min_x, st.min_y, st.max_x, st.max_y with
      | some mnx, some mny, some mxx, some mxy =>
        let h := pyRound (|mxy - mny| / resolution)
        let w := pyRound (|mxx - mnx| / resolution)
        if h + 1 < 0 ∨ w + 1 < 0 then .error .valueError
        else
          match rasterize resolution mnx mny st.grid
              (List.replicate (h + 1).toNat (List.replicate (w + 1).toNat (-1))) with
          | .error e => .error e
          | .ok img => .ok img
      | _, _, _, _ => .error .overflowError

/-! ### Derived notions used in the claim statements -/

/-- Cell of a 2-D array, out-of-range reads defaulting to `-1`. -/
def cellD (img : List (List ℤ)) (i j : ℕ) : ℤ := (img.getD i []).getD j (-1)

/-- Read a 2-D array at integer indices (`-2` when an index is negative, a
value neither function ever stores). -/
def get2dZ (img : List (List ℤ)) (rc : ℤ × ℤ) : ℤ :=
  if 0 ≤ rc.1 ∧ 0 ≤ rc.2 then cellD img rc.1.toNat rc.2.toNat else -2

/-- Row index a dictionary entry is written to (line 151). -/
def entryRow (res oy : ℚ) (en : (ℚ × ℚ) × Bool) : ℤ := pyRound ((en.1.2 - oy) / res)

/-- Column index a dictionary entry is written to (line 151). -/
def entryCol (res ox : ℚ) (en : (ℚ × ℚ) × Bool) : ℤ := pyRound ((en.1.1 - ox) / res)

/-- Output-array index of world coordinate `p` for a rasterization with
offsets `mn` and pitch `res`: `(row, col)`. -/
def cellIndex (mn : ℚ × ℚ) (res : ℚ) (p : ℚ × ℚ) : ℤ × ℤ :=
  (pyRound ((p.2 - mn.2) / res), pyRound ((p.1 - mn.1) / res))

/-- Running minimum with `none` as `inf`. -/
def omin : Option ℚ → ℚ → Option ℚ
  | none, x => some x
  | some m, x => if x < m then some x else some m

/-- Running maximum with `none` as `-inf`. -/
def omax : Option ℚ → ℚ → Option ℚ
  | none, x => some x
  | some M, x => if M < x then some x else some M

def lmin (l : List ℚ) : Option ℚ := l.foldl omin none
def lmax (l : List ℚ) : Option ℚ := l.foldl omax none

/-- The sub-sequence of visits whose cell value is not `-1`. -/
def knownVisits (l : List (ℤ × ℚ × ℚ)) : List (ℤ × ℚ × ℚ) :=
  l.filter (fun e => e.1 ≠ -1)

def visitXs (l : List (ℤ × ℚ × ℚ)) : List ℚ := (knownVisits l).map (fun e => e.2.1)
def visitYs (l : List (ℤ × ℚ × ℚ)) : List ℚ := (knownVisits l).map (fun e => e.2.2)

/-- All visits of a whole `merge_maps` call, in execution order. -/
def allVisits (maps_data : List (List ℤ)) (maps_resolution : List ℚ)
    (maps_origin : List (ℚ × ℚ)) (maps_size : List (ℕ × ℕ)) : List (ℤ × ℚ × ℚ) :=
  (List.range maps_data.length).flatMap (fun k =>
    cellVisits (maps_data.getD k []) (maps_resolution.getD k 0)
      (maps_origin.getD k (0, 0)).1 (maps_origin.getD k (0, 0)).2
      (maps_size.getD k (0, 0)).1 (maps_size.getD k (0, 0)).2)

/-- One-axis bounds update, as a fold step over the visited coordinates. -/
def bStep (a : Option ℚ × Option ℚ) (v : ℚ) : Option ℚ × Option ℚ :=
  updBounds a.1 a.2 v

/-- The dictionary effect of one (known) visit. -/
def dictStep (threshold : ℤ) (g : List ((ℚ × ℚ) × Bool)) (e : ℤ × ℚ × ℚ) :
    List ((ℚ × ℚ) × Bool) :=
  if threshold < e.1 then dictSetTrue g (e.2.1, e.2.2)
  else dictSetFreeIfAbsent g (e.2.1, e.2.2)

/-- World coordinates of the known visits, in visit order. -/
def visitCoords (l : List (ℤ × ℚ × ℚ)) : List (ℚ × ℚ) :=
  (knownVisits l).map (fun e => (e.2.1, e.2.2))

/-- Pure effect of processing source number `k` on the loop state and the
`resolution` variable. -/
def sourceStep (t : ℤ) (d : List (List ℤ)) (r : List ℚ) (o : List (ℚ × ℚ))
    (s : List (ℕ × ℕ)) (a : MState × Option ℚ) (k : ℕ) : MState × Option ℚ :=
  (visitFold t a.1 (cellVisits (d.getD k []) (r.getD k 0) (o.getD k (0, 0)).1
    (o.getD k (0, 0)).2 (s.getD k (0, 0)).1 (s.getD k (0, 0)).2),
   some (r.getD k 0))

/-- Input-list well-formedness: the three frame lists are long enough and each
data list has exactly `height*width` cells. -/
def validInputs (maps_data : List (List ℤ)) (maps_resolution : List ℚ)
    (maps_origin : List (ℚ × ℚ)) (maps_size : List (ℕ × ℕ)) : Prop :=
  maps_data.length ≤ maps_resolution.length ∧
  maps_data.length ≤ maps_origin.length ∧
  maps_data.length ≤ maps_size.length ∧
  ∀ k < maps_data.length,
    (maps_data.getD k []).length =
      (maps_size.getD k (0, 0)).1 * (maps_size.getD k (0, 0)).2

/-- The threshold rule applied to one cell value: `-1` stays unknown,
`> threshold` becomes `100`, anything else becomes `0`. -/
def thresholdVal (t v : ℤ) : ℤ := if v = -1 then -1 else if t < v then 100 else 0

/-- A grid re-expressed in its own frame with every value passed through the
threshold rule (the expected single-source merge output). -/
def singleExpected (d1 : List ℤ) (h w : ℕ) (t : ℤ) : List (List ℤ) :=
  (List.range h).map (fun j => (List.range w).map
    (fun i => thresholdVal t (d1.getD (i + j * w) 0)))

/-! ### `get_map_img` (lines 15-63) -/

/-- `np.reshape(map_data, [height, width])` (row-major). -/
def reshape (l : List ℤ) (height width : ℕ) : List (List ℤ) :=
  (List.range height).map (fun i => (l.drop (i * width)).take width)

/-- One iteration of the first crop scan (lines 44-49), state `(min_x, max_x)`
over columns; the pair is `(i, j)` with `i` the row. -/
def colScanStep (img : List (List ℤ)) (width : ℕ) (st : ℕ × ℕ) (ij : ℕ × ℕ) : ℕ × ℕ :=
  (if cellD img ij.1 ij.2 ≠ -1 ∧ ij.2 < st.1 then ij.2 else st.1,
   if cellD img ij.1 (width - ij.2 - 1) ≠ -1 ∧ st.2 < width - ij.2 - 1
   then width - ij.2 - 1 else st.2)

/-- One iteration of the second crop scan (lines 50-55), state `(min_y, max_y)`
over rows; the pair is `(j, i)` with `j` the column. -/
def rowScanStep (img : List (List ℤ)) (height : ℕ) (st : ℕ × ℕ) (ji : ℕ × ℕ) : ℕ × ℕ :=
  (if cellD img ji.2 ji.1 ≠ -1 ∧ ji.2 < st.1 then ji.2 else st.1,
   if cellD img (height - ji.2 - 1) ji.1 ≠ -1 ∧ st.2 < height - ji.2 - 1
   then height - ji.2 - 1 else st.2)

/-- Python slice `l[a:b]` for non-negative bounds. -/
def pySlice {α : Type} (l : List α) (a b : ℕ) : List α := (l.drop a).take (b - a)

/-- `img[r1:r2, c1:c2]`. -/
def crop2d (img : List (List ℤ)) (r1 r2 c1 c2 : ℕ) : List (List ℤ) :=
  (pySlice img r1 r2).map (fun row => pySlice row c1 c2)

/-- `get_map_img` (lines 15-63); `size = (height, width)`, `padding ≥ 0`.
`np.reshape` raises `ValueError` when the cell count does not match. -/
def get_map_img (map_data : List ℤ) (size : ℕ × ℕ) (crop : Bool) (padding : ℕ) :
    Except PyErr (List (List ℤ)) :=
  if map_data.length ≠ size.1 * size.2 then .error .valueError
  else
    let img := reshape map_data size.1 size.2
    if crop then
      let cs := (pairs size.1 size.2).foldl (colScanStep img size.2) (size.2, 0)
      let rs := (pairs size.2 size.1).foldl (rowScanStep img size.1) (size.1, 0)
      let mnx := if cs.1 < padding then padding else cs.1
      let mny := if rs.1 < padding then padding else rs.1
      .ok (crop2d img (mny - padding) (rs.2 + padding) (mnx - padding) (cs.2 + padding))
    else .ok img

/-! ## Basic lemmas -/

theorem pyRound_intCast (n : ℤ) : pyRound (n : ℚ) = n := by
  simp [pyRound]

theorem pyRound_natCast (n : ℕ) : pyRound (n : ℚ) = n := by
  simpa using pyRound_intCast (n : ℤ)

theorem pyRound_nonneg {q : ℚ} (h : 0 ≤ q) : 0 ≤ pyRound q := by
  have hf : (0 : ℤ) ≤ ⌊q⌋ := Int.le_floor.mpr (by exact_mod_cast h)
  unfold pyRound
  split_ifs <;> omega

theorem pyRound_mono {q r : ℚ} (h : q ≤ r) : pyRound q ≤ pyRound r := by
  have hfle : ⌊q⌋ ≤ ⌊r⌋ := Int.floor_le_floor h
  rcases lt_or_eq_of_le hfle with hlt | heq
  · have h1 : pyRound q ≤ ⌊q⌋ + 1 := by unfold pyRound; split_ifs <;> omega
    have h2 : ⌊r⌋ ≤ pyRound r := by unfold pyRound; split_ifs <;> omega
    omega
  · unfold pyRound
    rw [← heq]
    have hfr : q - ⌊q⌋ ≤ r - ⌊q⌋ := by linarith
    split_ifs <;> first | omega | linarith

theorem updBounds_fst (mn mx : Option ℚ) (v : ℚ) :
    (updBounds mn mx v).1 = omin mn v := by
  cases mn with
  | none => rfl
  | some m =>
    simp only [updBounds, omin]
    split_ifs with h
    · rfl
    · cases mx with
      | none => rfl
      | some M => dsimp only; split_ifs <;> rfl

theorem updBounds_snd_cases (mn mx : Option ℚ) (v : ℚ) :
    (updBounds mn mx v).2 = mx ∨ (updBounds mn mx v).2 = some v := by
  cases mn with
  | none => left; rfl
  | some m =>
    simp only [updBounds]
    split_ifs with h
    · left; rfl
    · cases mx with
      | none => right; rfl
      | some M =>
        dsimp only
        split_ifs with h2
        · right; rfl
        · left; rfl

theorem updBounds_snd_of_le {m : ℚ} (mx : Option ℚ) {v : ℚ} (h : m ≤ v) :
    (updBounds (some m) mx v).2 = omax mx v := by
  simp only [updBounds]
  rw [if_neg (not_lt.mpr h)]
  cases mx with
  | none => rfl
  | some M => simp only [omax]; split_ifs <;> rfl

/-! ### Generic running min / max folds -/

theorem foldl_min_mem {α : Type} [LinearOrder α] (l : List α) (a : α) :
    l.foldl min a ∈ a :: l := by
  induction l generalizing a with
  | nil => simp
  | cons x xs ih =>
    rcases List.mem_cons.mp (ih (min a x)) with h | h
    · rcases min_cases a x with ⟨he, _⟩ | ⟨he, _⟩ <;> rw [he] at h <;> simp [h, List.foldl_cons, he]
    · simp [h]

theorem foldl_min_le_init {α : Type} [LinearOrder α] (l : List α) (a : α) :
    l.foldl min a ≤ a := by
  induction l generalizing a with
  | nil => simp
  | cons x xs ih => exact le_trans (ih (min a x)) (min_le_left a x)

theorem foldl_min_le_mem {α : Type} [LinearOrder α] {l : List α} {y : α} (a : α)
    (hy : y ∈ l) : l.foldl min a ≤ y := by
  induction l generalizing a with
  | nil => simp at hy
  | cons x xs ih =>
    rcases List.mem_cons.mp hy with rfl | hy'
    · exact le_trans (foldl_min_le_init xs (min a y)) (min_le_right a y)
    · exact ih (min a x) hy'

theorem foldl_max_mem {α : Type} [LinearOrder α] (l : List α) (a : α) :
    l.foldl max a ∈ a :: l := by
  induction l generalizing a with
  | nil => simp
  | cons x xs ih =>
    rcases List.mem_cons.mp (ih (max a x)) with h | h
    · rcases max_cases a x with ⟨he, _⟩ | ⟨he, _⟩ <;> rw [he] at h <;> simp [h, List.foldl_cons, he]
    · simp [h]

theorem foldl_max_init_le {α : Type} [LinearOrder α] (l : List α) (a : α) :
    a ≤ l.foldl max a := by
  induction l generalizing a with
  | nil => simp
  | cons x xs ih => exact le_trans (le_max_left a x) (ih (max a x))

theorem foldl_max_mem_le {α : Type} [LinearOrder α] {l : List α} {y : α} (a : α)
    (hy : y ∈ l) : y ≤ l.foldl max a := by
  induction l generalizing a with
  | nil => simp at hy
  | cons x xs ih =>
    rcases List.mem_cons.mp hy with rfl | hy'
    · exact le_trans (le_max_right a y) (foldl_max_init_le xs (max a y))
    · exact ih (max a x) hy'

/-! ### Option-valued running min / max -/

theorem foldl_omin_some (l : List ℚ) (m : ℚ) :
    l.foldl omin (some m) = some (l.foldl min m) := by
  induction l generalizing m with
  | nil => rfl
  | cons x xs ih =>
    simp only [List.foldl_cons, omin]
    split_ifs with h
    · rw [ih]
      congr 1
      simp [min_eq_right (le_of_lt h), min_comm]
    · rw [ih]
      congr 1
      simp [min_eq_left (le_of_not_lt h), min_comm]

theorem lmin_cons (x : ℚ) (xs : List ℚ) :
    lmin (x :: xs) = some (xs.foldl min x) := by
  simp only [lmin, List.foldl_cons, omin]
  exact foldl_omin_some xs x

theorem foldl_omax_some (l : List ℚ) (m : ℚ) :
    l.foldl omax (some m) = some (l.foldl max m) := by
  induction l generalizing m with
  | nil => rfl
  | cons x xs ih =>
    simp only [List.foldl_cons, omax]
    split_ifs with h
    · rw [ih]
      congr 1
      simp [max_eq_right (le_of_lt h), max_comm]
    · rw [ih]
      congr 1
      simp [max_eq_left (le_of_not_lt h), max_comm]

theorem lmax_cons (x : ℚ) (xs : List ℚ) :
    lmax (x :: xs) = some (xs.foldl max x) := by
  simp only [lmax, List.foldl_cons, omax]
  exact foldl_omax_some xs x

/-- `lmin` is the least element when one exists. -/
theorem lmin_eq_of_mem_of_le {l : List ℚ} {a : ℚ} (hmem : a ∈ l)
    (hle : ∀ x ∈ l, a ≤ x) : lmin l = some a := by
  cases l with
  | nil => simp at hmem
  | cons x xs =>
    rw [lmin_cons]
    congr 1
    have h1 : xs.foldl min x ∈ x :: xs := foldl_min_mem xs x
    have h2 : xs.foldl min x ≤ a := by
      rcases List.mem_cons.mp hmem with rfl | h
      · exact foldl_min_le_init xs a
      · exact foldl_min_le_mem x h
    exact le_antisymm h2 (hle _ h1)

/-- `lmax` is the greatest element when one exists. -/
theorem lmax_eq_of_mem_of_le {l : List ℚ} {a : ℚ} (hmem : a ∈ l)
    (hle : ∀ x ∈ l, x ≤ a) : lmax l = some a := by
  cases l with
  | nil => simp at hmem
  | cons x xs =>
    rw [lmax_cons]
    congr 1
    have h1 : xs.foldl max x ∈ x :: xs := foldl_max_mem xs x
    have h2 : a ≤ xs.foldl max x := by
      rcases List.mem_cons.mp hmem with rfl | h
      · exact foldl_max_init_le xs a
      · exact foldl_max_mem_le x h
    exact le_antisymm (hle _ h1) h2

theorem lmin_le_of_mem {l : List ℚ} {m a : ℚ} (hl : lmin l = some m) (ha : a ∈ l) :
    m ≤ a := by
  cases l with
  | nil => simp at ha
  | cons x xs =>
    rw [lmin_cons] at hl
    rcases List.mem_cons.mp ha with rfl | h
    · exact (Option.some_injective _ hl) ▸ foldl_min_le_init xs a
    · exact (Option.some_injective _ hl) ▸ foldl_min_le_mem x h

theorem le_lmax_of_mem {l : List ℚ} {m a : ℚ} (hl : lmax l = some m) (ha : a ∈ l) :
    a ≤ m := by
  cases l with
  | nil => simp at ha
  | cons x xs =>
    rw [lmax_cons] at hl
    rcases List.mem_cons.mp ha with rfl | h
    · exact (Option.some_injective _ hl) ▸ foldl_max_init_le xs a
    · exact (Option.some_injective _ hl) ▸ foldl_max_mem_le x h

/-! ### Dictionary lemmas -/

theorem lookupDict_append (q : ℚ × ℚ) (g l : List ((ℚ × ℚ) × Bool)) :
    lookupDict q (g ++ l) =
      match lookupDict q g with
      | some b => some b
      | none => lookupDict q l := by
  induction g with
  | nil => simp [lookupDict]
  | cons e rest ih =>
    by_cases h : e.1 = q <;> simp [lookupDict, h, ih]

theorem lookupDict_map_update (p : ℚ × ℚ) (g : List ((ℚ × ℚ) × Bool))
    (hs : (lookupDict p g).isSome = true) :
    lookupDict p (g.map (fun e => if e.1 = p then (p, true) else e)) = some true := by
  induction g with
  | nil => simp [lookupDict] at hs
  | cons e rest ih =>
    by_cases h : e.1 = p
    · simp [lookupDict, h]
    · simp only [lookupDict, h, if_false, ite_false] at hs
      simp only [List.map_cons, if_neg h, lookupDict, if_neg h]
      exact ih hs

theorem lookupDict_map_update_other {p q : ℚ × ℚ} (hq : q ≠ p)
    (g : List ((ℚ × ℚ) × Bool)) :
    lookupDict q (g.map (fun e => if e.1 = p then (p, true) else e)) =
      lookupDict q g := by
  induction g with
  | nil => rfl
  | cons e rest ih =>
    by_cases h : e.1 = p
    · have h1 : ¬ (p = q) := Ne.symm hq
      have h2 : ¬ (e.1 = q) := by rw [h]; exact h1
      simp only [List.map_cons, if_pos h, lookupDict, if_neg h1, if_neg h2, ih]
    · simp only [List.map_cons, if_neg h, lookupDict, ih]

theorem lookupDict_dictSetTrue_self (g : List ((ℚ × ℚ) × Bool)) (p : ℚ × ℚ) :
    lookupDict p (dictSetTrue g p) = some true := by
  unfold dictSetTrue
  split_ifs with h
  · exact lookupDict_map_update p g h
  · rw [lookupDict_append]
    cases hl : lookupDict p g with
    | some b => rw [hl] at h; simp at h
    | none => simp [lookupDict]

theorem lookupDict_dictSetTrue_other {p q : ℚ × ℚ} (hq : q ≠ p)
    (g : List ((ℚ × ℚ) × Bool)) :
    lookupDict q (dictSetTrue g p) = lookupDict q g := by
  unfold dictSetTrue
  split_ifs with h
  · exact lookupDict_map_update_other hq g
  · rw [lookupDict_append]
    cases hl : lookupDict q g with
    | some b => rfl
    | none => simp [lookupDict, Ne.symm hq]

theorem lookupDict_dictSetFree_self (g : List ((ℚ × ℚ) × Bool)) (p : ℚ × ℚ) :
    lookupDict p (dictSetFreeIfAbsent g p) = some ((lookupDict p g).getD false) := by
  unfold dictSetFreeIfAbsent
  split_ifs with h
  · cases hl : lookupDict p g with
    | some b => simp [hl]
    | none => rw [hl] at h; simp at h
  · cases hl : lookupDict p g with
    | some b => rw [hl] at h; simp at h
    | none => rw [lookupDict_append, hl]; simp [lookupDict]

theorem lookupDict_dictSetFree_other {p q : ℚ × ℚ} (hq : q ≠ p)
    (g : List ((ℚ × ℚ) × Bool)) :
    lookupDict q (dictSetFreeIfAbsent g p) = lookupDict q g := by
  unfold dictSetFreeIfAbsent
  split_ifs with h
  · rfl
  · rw [lookupDict_append]
    cases hl : lookupDict q g with
    | some b => rfl
    | none => simp [lookupDict, Ne.symm hq]

theorem lookupDict_dictStep_other (t : ℤ) {p : ℚ × ℚ} {e : ℤ × ℚ × ℚ}
    (h : (e.2.1, e.2.2) ≠ p) (g : List ((ℚ × ℚ) × Bool)) :
    lookupDict p (dictStep t g e) = lookupDict p g := by
  unfold dictStep
  split_ifs with ht
  · exact lookupDict_dictSetTrue_other (Ne.symm h) g
  · exact lookupDict_dictSetFree_other (Ne.symm h) g

theorem lookupDict_dictStep_preserve_true (t : ℤ) {p : ℚ × ℚ} (e : ℤ × ℚ × ℚ)
    {g : List ((ℚ × ℚ) × Bool)} (hg : lookupDict p g = some true) :
    lookupDict p (dictStep t g e) = some true := by
  by_cases hc : (e.2.1, e.2.2) = p
  · unfold dictStep
    split_ifs with ht
    · rw [hc]; exact lookupDict_dictSetTrue_self g p
    · rw [hc, lookupDict_dictSetFree_self, hg]; rfl
  · rw [lookupDict_dictStep_other t hc g]; exact hg

theorem lookupDict_dictStep_isSome (t : ℤ) {p : ℚ × ℚ} (e : ℤ × ℚ × ℚ)
    {g : List ((ℚ × ℚ) × Bool)} (hg : (lookupDict p g).isSome = true) :
    (lookupDict p (dictStep t g e)).isSome = true := by
  by_cases hc : (e.2.1, e.2.2) = p
  · unfold dictStep
    split_ifs with ht
    · rw [hc, lookupDict_dictSetTrue_self g p]; rfl
    · rw [hc, lookupDict_dictSetFree_self]; rfl
  · rw [lookupDict_dictStep_other t hc g]; exact hg

theorem lookupDict_dictStep_noneOrFalse (t : ℤ) {p : ℚ × ℚ} {e : ℤ × ℚ × ℚ}
    (hfree : (e.2.1, e.2.2) = p → e.1 ≤ t) {g : List ((ℚ × ℚ) × Bool)}
    (hg : lookupDict p g = none ∨ lookupDict p g = some false) :
    lookupDict p (dictStep t g e) = none ∨
      lookupDict p (dictStep t g e) = some false := by
  by_cases hc : (e.2.1, e.2.2) = p
  · unfold dictStep
    rw [if_neg (not_lt.mpr (hfree hc)), hc, lookupDict_dictSetFree_self]
    rcases hg with hg | hg <;> rw [hg] <;> right <;> rfl
  · rw [lookupDict_dictStep_other t hc g]; exact hg

/-! ### Dictionary facts about the fold over a visit sequence -/

theorem foldl_dictStep_preserve_true (t : ℤ) {p : ℚ × ℚ}
    (E : List (ℤ × ℚ × ℚ)) {g : List ((ℚ × ℚ) × Bool)}
    (hg : lookupDict p g = some true) :
    lookupDict p (E.foldl (dictStep t) g) = some true := by
  induction E generalizing g with
  | nil => exact hg
  | cons e rest ih => exact ih (lookupDict_dictStep_preserve_true t e hg)

theorem foldl_dictStep_isSome (t : ℤ) {p : ℚ × ℚ}
    (E : List (ℤ × ℚ × ℚ)) {g : List ((ℚ × ℚ) × Bool)}
    (hg : (lookupDict p g).isSome = true) :
    (lookupDict p (E.foldl (dictStep t) g)).isSome = true := by
  induction E generalizing g with
  | nil => exact hg
  | cons e rest ih => exact ih (lookupDict_dictStep_isSome t e hg)

theorem foldl_dictStep_establish_true (t : ℤ) {p : ℚ × ℚ} {E : List (ℤ × ℚ × ℚ)}
    {e : ℤ × ℚ × ℚ} (he : e ∈ E) (hobs : t < e.1) (hp : (e.2.1, e.2.2) = p)
    (g : List ((ℚ × ℚ) × Bool)) :
    lookupDict p (E.foldl (dictStep t) g) = some true := by
  induction E generalizing g with
  | nil => simp at he
  | cons a rest ih =>
    rcases List.mem_cons.mp he with rfl | ha
    · refine foldl_dictStep_preserve_true t rest ?_
      unfold dictStep
      rw [if_pos hobs, hp]
      exact lookupDict_dictSetTrue_self g p
    · exact ih ha (dictStep t g a)

theorem foldl_dictStep_noneOrFalse (t : ℤ) {p : ℚ × ℚ} {E : List (ℤ × ℚ × ℚ)}
    (hfree : ∀ e ∈ E, (e.2.1, e.2.2) = p → e.1 ≤ t)
    {g : List ((ℚ × ℚ) × Bool)}
    (hg : lookupDict p g = none ∨ lookupDict p g = some false) :
    lookupDict p (E.foldl (dictStep t) g) = none ∨
      lookupDict p (E.foldl (dictStep t) g) = some false := by
  induction E generalizing g with
  | nil => exact hg
  | cons a rest ih =>
    exact ih (fun e he => hfree e (List.mem_cons_of_mem a he))
      (lookupDict_dictStep_noneOrFalse t (hfree a (List.mem_cons_self a rest)) hg)

theorem foldl_dictStep_present (t : ℤ) {p : ℚ × ℚ} {E : List (ℤ × ℚ × ℚ)}
    {e : ℤ × ℚ × ℚ} (he : e ∈ E) (hp : (e.2.1, e.2.2) = p)
    (g : List ((ℚ × ℚ) × Bool)) :
    (lookupDict p (E.foldl (dictStep t) g)).isSome = true := by
  induction E generalizing g with
  | nil => simp at he
  | cons a rest ih =>
    rcases List.mem_cons.mp he with rfl | ha
    · refine foldl_dictStep_isSome t rest ?_
      unfold dictStep
      split_ifs with ht
      · rw [hp, lookupDict_dictSetTrue_self g p]; rfl
      · rw [hp, lookupDict_dictSetFree_self]; rfl
    · exact ih ha (dictStep t g a)

/-- Every key of the dictionary built by a fold is an original key or the
coordinate of one of the visits. -/
theorem foldl_dictStep_keys (t : ℤ) (E : List (ℤ × ℚ × ℚ))
    (g : List ((ℚ × ℚ) × Bool)) :
    ∀ en ∈ E.foldl (dictStep t) g,
      en.1 ∈ g.map Prod.fst ∨ en.1 ∈ E.map (fun e => (e.2.1, e.2.2)) := by
  induction E generalizing g with
  | nil => intro en hen; left; exact List.mem_map_of_mem Prod.fst hen
  | cons a rest ih =>
    intro en hen
    rcases ih (dictStep t g a) en hen with h | h
    · have hstep : ∀ x ∈ dictStep t g a,
          x.1 ∈ g.map Prod.fst ∨ x.1 = (a.2.1, a.2.2) := by
        intro x hx
        unfold dictStep at hx
        split_ifs at hx with ht
        · unfold dictSetTrue at hx
          split_ifs at hx with hpres
          · rcases List.mem_map.mp hx with ⟨y, hy, hyx⟩
            by_cases hy1 : y.1 = (a.2.1, a.2.2)
            · right; rw [← hyx]; simp [hy1]
            · left; rw [← hyx]; simp only [if_neg hy1]
              exact List.mem_map_of_mem Prod.fst hy
          · rcases List.mem_append.mp hx with hx' | hx'
            · left; exact List.mem_map_of_mem Prod.fst hx'
            · right; simp at hx'; simp [hx']
        · unfold dictSetFreeIfAbsent at hx
          split_ifs at hx with hpres
          · left; exact List.mem_map_of_mem Prod.fst hx
          · rcases List.mem_append.mp hx with hx' | hx'
            · left; exact List.mem_map_of_mem Prod.fst hx'
            · right; simp at hx'; simp [hx']
      rcases List.mem_map.mp h with ⟨x, hx, hxe⟩
      rcases hstep x hx with h' | h'
      · left; rw [← hxe]; exact h'
      · right; rw [← hxe, h']; simp
    · right; simp only [List.map_cons, List.mem_cons]; right; exact h

/-! ### Projections of the visit fold -/

theorem knownVisits_cons (e : ℤ × ℚ × ℚ) (l : List (ℤ × ℚ × ℚ)) :
    knownVisits (e :: l) =
      if e.1 = -1 then knownVisits l else e :: knownVisits l := by
  by_cases h : e.1 = -1 <;> simp [knownVisits, List.filter_cons, h]

theorem visitXs_cons (e : ℤ × ℚ × ℚ) (l : List (ℤ × ℚ × ℚ)) :
    visitXs (e :: l) = if e.1 = -1 then visitXs l else e.2.1 :: visitXs l := by
  by_cases h : e.1 = -1 <;> simp [visitXs, knownVisits_cons, h]

theorem visitYs_cons (e : ℤ × ℚ × ℚ) (l : List (ℤ × ℚ × ℚ)) :
    visitYs (e :: l) = if e.1 = -1 then visitYs l else e.2.2 :: visitYs l := by
  by_cases h : e.1 = -1 <;> simp [visitYs, knownVisits_cons, h]

theorem visitFold_cons (t : ℤ) (st : MState) (e : ℤ × ℚ × ℚ) (rest : List (ℤ × ℚ × ℚ)) :
    visitFold t st (e :: rest) = visitFold t (visitStep t st e) rest := rfl

theorem visitFold_append (t : ℤ) (st : MState) (l1 l2 : List (ℤ × ℚ × ℚ)) :
    visitFold t st (l1 ++ l2) = visitFold t (visitFold t st l1) l2 := by
  unfold visitFold
  rw [List.foldl_append]

theorem visitStep_grid (t : ℤ) (st : MState) (e : ℤ × ℚ × ℚ) :
    (visitStep t st e).grid = if e.1 = -1 then st.grid else dictStep t st.grid e := by
  unfold visitStep dictStep
  split_ifs <;> rfl

theorem visitStep_bx (t : ℤ) (st : MState) (e : ℤ × ℚ × ℚ) :
    ((visitStep t st e).min_x, (visitStep t st e).max_x) =
      if e.1 = -1 then (st.min_x, st.max_x) else bStep (st.min_x, st.max_x) e.2.1 := by
  unfold visitStep bStep
  split_ifs <;> rfl

theorem visitStep_by (t : ℤ) (st : MState) (e : ℤ × ℚ × ℚ) :
    ((visitStep t st e).min_y, (visitStep t st e).max_y) =
      if e.1 = -1 then (st.min_y, st.max_y) else bStep (st.min_y, st.max_y) e.2.2 := by
  unfold visitStep bStep
  split_ifs <;> rfl

theorem visitFold_grid (t : ℤ) (st : MState) (l : List (ℤ × ℚ × ℚ)) :
    (visitFold t st l).grid = (knownVisits l).foldl (dictStep t) st.grid := by
  induction l generalizing st with
  | nil => rfl
  | cons e rest ih =>
    rw [visitFold_cons, ih, knownVisits_cons]
    by_cases h : e.1 = -1
    · rw [if_pos h, visitStep_grid, if_pos h]
    · rw [if_neg h, visitStep_grid, if_neg h, List.foldl_cons]

theorem visitFold_bx (t : ℤ) (st : MState) (l : List (ℤ × ℚ × ℚ)) :
    ((visitFold t st l).min_x, (visitFold t st l).max_x) =
      (visitXs l).foldl bStep (st.min_x, st.max_x) := by
  induction l generalizing st with
  | nil => rfl
  | cons e rest ih =>
    rw [visitFold_cons, ih, visitXs_cons]
    by_cases h : e.1 = -1
    · rw [if_pos h]
      have hx := visitStep_bx t st e
      rw [if_pos h] at hx
      rw [hx]
    · rw [if_neg h, List.foldl_cons]
      have hx := visitStep_bx t st e
      rw [if_neg h] at hx
      rw [hx]

theorem visitFold_by (t : ℤ) (st : MState) (l : List (ℤ × ℚ × ℚ)) :
    ((visitFold t st l).min_y, (visitFold t st l).max_y) =
      (visitYs l).foldl bStep (st.min_y, st.max_y) := by
  induction l generalizing st with
  | nil => rfl
  | cons e rest ih =>
    rw [visitFold_cons, ih, visitYs_cons]
    by_cases h : e.1 = -1
    · rw [if_pos h]
      have hy := visitStep_by t st e
      rw [if_pos h] at hy
      rw [hy]
    · rw [if_neg h, List.foldl_cons]
      have hy := visitStep_by t st e
      rw [if_neg h] at hy
      rw [hy]

/-! ### One-axis bounds fold lemmas -/

theorem foldl_bStep_fst (l : List ℚ) (a : Option ℚ × Option ℚ) :
    (l.foldl bStep a).1 = l.foldl omin a.1 := by
  induction l generalizing a with
  | nil => rfl
  | cons x xs ih =>
    rw [List.foldl_cons, List.foldl_cons, ih]
    congr 1
    exact updBounds_fst a.1 a.2 x

theorem foldl_bStep_snd_cases (l : List ℚ) (a : Option ℚ × Option ℚ) :
    (l.foldl bStep a).2 = a.2 ∨ ∃ x ∈ l, (l.foldl bStep a).2 = some x := by
  induction l generalizing a with
  | nil => left; rfl
  | cons x xs ih =>
    rw [List.foldl_cons]
    rcases ih (bStep a x) with h | ⟨y, hy, h⟩
    · rw [h]
      rcases updBounds_snd_cases a.1 a.2 x with h2 | h2
      · left; exact h2
      · right; exact ⟨x, by simp, h2⟩
    · right; exact ⟨y, by simp [hy], h⟩

theorem omin_some_of_le {m x : ℚ} (h : m ≤ x) : omin (some m) x = some m := by
  simp only [omin]
  rw [if_neg (not_lt.mpr h)]

theorem foldl_bStep_of_min_le (l : List ℚ) {m : ℚ} (mx : Option ℚ)
    (hall : ∀ x ∈ l, m ≤ x) :
    l.foldl bStep (some m, mx) = (some m, l.foldl omax mx) := by
  induction l generalizing mx with
  | nil => rfl
  | cons x xs ih =>
    rw [List.foldl_cons, List.foldl_cons]
    have hx : m ≤ x := hall x (by simp)
    have hb : bStep (some m, mx) x = (some m, omax mx x) := by
      unfold bStep
      rw [Prod.ext_iff]
      refine ⟨?_, updBounds_snd_of_le mx hx⟩
      rw [updBounds_fst]
      exact omin_some_of_le hx
    rw [hb]
    exact ih (omax mx x) (fun y hy => hall y (by simp [hy]))

/-! ### Bridging the Python loops to the pure folds -/

theorem mem_pairs {m n : ℕ} {ij : ℕ × ℕ} : ij ∈ pairs m n ↔ ij.1 < m ∧ ij.2 < n := by
  cases ij with
  | mk i j =>
    simp only [pairs, List.mem_flatMap, List.mem_map, List.mem_range]
    constructor
    · rintro ⟨a, ha, b, hb, hab⟩
      cases hab
      exact ⟨ha, hb⟩
    · rintro ⟨hi, hj⟩
      exact ⟨i, hi, j, hj, rfl⟩

theorem processCells_ok (t : ℤ) (occ : List ℤ) (res ox oy : ℚ) (width : ℕ)
    (L : List (ℕ × ℕ)) (st : MState)
    (hL : ∀ ij ∈ L, ij.1 + ij.2 * width < occ.length) :
    processCells t occ res ox oy width L st =
      .ok (visitFold t st (L.map (fun ij =>
        (occ.getD (ij.1 + ij.2 * width) 0,
          ((ij.1 : ℚ) * res + ox, (ij.2 : ℚ) * res + oy))))) := by
  induction L generalizing st with
  | nil => rfl
  | cons ij rest ih =>
    have hin : ij.1 + ij.2 * width < occ.length := hL ij (by simp)
    have hget : occ.get? (ij.1 + ij.2 * width) = some (occ.getD (ij.1 + ij.2 * width) 0) := by
      rw [List.get?_eq_getElem?, List.getElem?_eq_getElem hin, List.getD_eq_getElem _ _ hin]
    rw [processCells, processCell, hget]
    dsimp only
    rw [ih _ (fun x hx => hL x (List.mem_cons_of_mem ij hx))]
    rfl

theorem processSource_ok (t : ℤ) (occ : List ℤ) (res : ℚ) (origin : ℚ × ℚ)
    (size : ℕ × ℕ) (st : MState) (hlen : occ.length = size.1 * size.2) :
    processSource t occ res origin size st =
      .ok (visitFold t st (cellVisits occ res origin.1 origin.2 size.1 size.2)) := by
  unfold processSource cellVisits
  apply processCells_ok
  intro ij hij
  rcases mem_pairs.mp hij with ⟨h1, h2⟩
  rw [hlen]
  have hlt : ij.1 + ij.2 * size.2 < (ij.2 + 1) * size.2 := by
    rw [add_mul, one_mul]; omega
  have hle : (ij.2 + 1) * size.2 ≤ size.1 * size.2 :=
    Nat.mul_le_mul_right _ (by omega)
  omega

theorem mergeLoop_ok (t : ℤ) (d : List (List ℤ)) (r : List ℚ) (o : List (ℚ × ℚ))
    (s : List (ℕ × ℕ)) (idxs : List ℕ) (acc : MState × Option ℚ)
    (h : ∀ k ∈ idxs, k < d.length ∧ k < r.length ∧ k < o.length ∧ k < s.length ∧
      (d.getD k []).length = (s.getD k (0, 0)).1 * (s.getD k (0, 0)).2) :
    mergeLoop t d r o s idxs acc =
      .ok (idxs.foldl (sourceStep t d r o s) acc) := by
  induction idxs generalizing acc with
  | nil => rfl
  | cons k rest ih =>
    obtain ⟨hkd, hkr, hko, hks, hsz⟩ := h k (by simp)
    have hgd : d.get? k = some (d.getD k []) := by
      rw [List.get?_eq_getElem?, List.getElem?_eq_getElem hkd, List.getD_eq_getElem _ _ hkd]
    have hgr : r.get? k = some (r.getD k 0) := by
      rw [List.get?_eq_getElem?, List.getElem?_eq_getElem hkr, List.getD_eq_getElem _ _ hkr]
    have hgo : o.get? k = some (o.getD k (0, 0)) := by
      rw [List.get?_eq_getElem?, List.getElem?_eq_getElem hko, List.getD_eq_getElem _ _ hko]
    have hgs : s.get? k = some (s.getD k (0, 0)) := by
      rw [List.get?_eq_getElem?, List.getElem?_eq_getElem hks, List.getD_eq_getElem _ _ hks]
    rw [mergeLoop, hgd, hgr, hgo, hgs]
    dsimp only
    rw [processSource_ok t _ _ _ _ _ hsz]
    dsimp only
    rw [ih _ (fun x hx => h x (List.mem_cons_of_mem k hx))]
    rfl

theorem foldl_sourceStep_fst (t : ℤ) (d : List (List ℤ)) (r : List ℚ)
    (o : List (ℚ × ℚ)) (s : List (ℕ × ℕ)) (idxs : List ℕ) (acc : MState × Option ℚ) :
    (idxs.foldl (sourceStep t d r o s) acc).1 =
      visitFold t acc.1 (idxs.flatMap (fun k =>
        cellVisits (d.getD k []) (r.getD k 0) (o.getD k (0, 0)).1
          (o.getD k (0, 0)).2 (s.getD k (0, 0)).1 (s.getD k (0, 0)).2)) := by
  induction idxs generalizing acc with
  | nil => rfl
  | cons k rest ih =>
    rw [List.foldl_cons, List.flatMap_cons, visitFold_append, ih]
    rfl

/-- The scanning phase of `merge_maps` on well-formed inputs: final state and
final `resolution` variable. -/
theorem mergeState_eq (d : List (List ℤ)) (r : List ℚ) (o : List (ℚ × ℚ))
    (s : List (ℕ × ℕ)) (t : ℤ) (hv : validInputs d r o s) :
    mergeState d r o s t =
      .ok (visitFold t initState (allVisits d r o s),
        if d.length = 0 then none else some (r.getD (d.length - 1) 0)) := by
  obtain ⟨hr, ho, hs, hsz⟩ := hv
  rw [mergeState, mergeLoop_ok t d r o s _ _ (fun k hk => by
    have hkd : k < d.length := List.mem_range.mp hk
    exact ⟨hkd, lt_of_lt_of_le hkd hr, lt_of_lt_of_le hkd ho,
      lt_of_lt_of_le hkd hs, hsz k hkd⟩)]
  congr 1
  rw [Prod.ext_iff]
  constructor
  · rw [foldl_sourceStep_fst]
    rfl
  · cases hd : d.length with
    | zero => simp
    | succ n =>
      rw [List.range_succ, List.foldl_append, List.foldl_cons, List.foldl_nil]
      simp [sourceStep]

/-! ### The merge loop can only fail with `IndexError` -/

theorem processCells_error (t : ℤ) (occ : List ℤ) (res ox oy : ℚ) (width : ℕ)
    (L : List (ℕ × ℕ)) (st : MState) {e : PyErr}
    (h : processCells t occ res ox oy width L st = .error e) : e = .indexError := by
  induction L generalizing st with
  | nil => simp [processCells] at h
  | cons ij rest ih =>
    rw [processCells] at h
    cases hc : processCell t occ res ox oy width st ij with
    | error e' =>
      rw [hc] at h
      unfold processCell at hc
      cases hg : occ.get? (ij.1 + ij.2 * width) with
      | none => rw [hg] at hc; cases hc; cases h; rfl
      | some v => rw [hg] at hc; cases hc
    | ok st' =>
      rw [hc] at h
      exact ih st' h

theorem mergeLoop_error (t : ℤ) (d : List (List ℤ)) (r : List ℚ) (o : List (ℚ × ℚ))
    (s : List (ℕ × ℕ)) (idxs : List ℕ) (acc : MState × Option ℚ) {e : PyErr}
    (h : mergeLoop t d r o s idxs acc = .error e) : e = .indexError := by
  induction idxs generalizing acc with
  | nil => simp [mergeLoop] at h
  | cons k rest ih =>
    rw [mergeLoop] at h
    cases hd : d.get? k with
    | none => rw [hd] at h; cases h; rfl
    | some occ =>
      rw [hd] at h
      cases hr : r.get? k with
      | none => rw [hr] at h; cases h; rfl
      | some res =>
        rw [hr] at h
        cases ho : o.get? k with
        | none => rw [ho] at h; cases h; rfl
        | some org =>
          rw [ho] at h
          cases hs : s.get? k with
          | none => rw [hs] at h; cases h; rfl
          | some sz =>
            rw [hs] at h
            dsimp only at h
            cases hp : processSource t occ res org sz acc.1 with
            | error e' =>
              rw [hp] at h
              cases h
              exact processCells_error t occ res org.1 org.2 sz.2 _ _ hp
            | ok st' =>
              rw [hp] at h
              exact ih _ h

/-- If the scan loop succeeds, every index it visited was within all four
input lists. -/
theorem mergeLoop_ok_lengths (t : ℤ) (d : List (List ℤ)) (r : List ℚ)
    (o : List (ℚ × ℚ)) (s : List (ℕ × ℕ)) (idxs : List ℕ) (acc : MState × Option ℚ)
    {res : MState × Option ℚ} (h : mergeLoop t d r o s idxs acc = .ok res) :
    ∀ k ∈ idxs, k < r.length ∧ k < o.length ∧ k < s.length := by
  induction idxs generalizing acc with
  | nil => intro k hk; simp at hk
  | cons k0 rest ih =>
    intro k hk
    rw [mergeLoop] at h
    cases hd : d.get? k0 with
    | none => rw [hd] at h; cases h
    | some occ =>
      rw [hd] at h
      cases hr : r.get? k0 with
      | none => rw [hr] at h; cases h
      | some rr =>
        rw [hr] at h
        cases ho : o.get? k0 with
        | none => rw [ho] at h; cases h
        | some org =>
          rw [ho] at h
          cases hs : s.get? k0 with
          | none => rw [hs] at h; cases h
          | some sz =>
            rw [hs] at h
            dsimp only at h
            cases hp : processSource t occ rr org sz acc.1 with
            | error e' => rw [hp] at h; cases h
            | ok st' =>
              rw [hp] at h
              rcases List.mem_cons.mp hk with rfl | hk'
              · refine ⟨?_, ?_, ?_⟩
                · exact (List.get?_eq_some.mp hr).1
                · exact (List.get?_eq_some.mp ho).1
                · exact (List.get?_eq_some.mp hs).1
              · exact ih _ h k hk'

/-! ### Rasterization lemmas -/

theorem npIndex_of_inrange {n : ℕ} {i : ℤ} (h0 : 0 ≤ i) (h1 : i < (n : ℤ)) :
    npIndex n i = some i.toNat := by
  unfold npIndex
  rw [if_pos ⟨h0, h1⟩]

theorem npIndex_some_nonneg {n : ℕ} {i : ℤ} {k : ℕ} (h0 : 0 ≤ i)
    (h : npIndex n i = some k) : k = i.toNat ∧ i < (n : ℤ) := by
  unfold npIndex at h
  split_ifs at h with h1 h2
  · cases h; exact ⟨rfl, h1.2⟩
  · exact absurd h2.2 (not_lt.mpr h0)

/-- Successful in-range write: the shape of the result and its contents. -/
theorem set2d_inv {img img2 : List (List ℤ)} {r c : ℤ} {v : ℤ}
    (h0r : 0 ≤ r) (h0c : 0 ≤ c) (h : set2d img r c v = some img2) :
    r.toNat < img.length ∧ c.toNat < (img.getD r.toNat []).length ∧
    img2 = img.set r.toNat ((img.getD r.toNat []).set c.toNat v) := by
  unfold set2d at h
  cases h1 : npIndex img.length r with
  | none => rw [h1] at h; cases h
  | some ri =>
    rw [h1] at h
    dsimp only at h
    obtain ⟨rfl, hrlt⟩ := npIndex_some_nonneg h0r h1
    cases h2 : npIndex (img.getD r.toNat []).length c with
    | none => rw [h2] at h; cases h
    | some ci =>
      rw [h2] at h
      dsimp only at h
      obtain ⟨rfl, hclt⟩ := npIndex_some_nonneg h0c h2
      cases h
      refine ⟨by omega, by omega, rfl⟩

theorem set2d_some_of_inrange (img : List (List ℤ)) {r c : ℤ} (v : ℤ)
    (h0r : 0 ≤ r) (h1r : r < (img.length : ℤ))
    (h0c : 0 ≤ c) (h1c : c < ((img.getD r.toNat []).length : ℤ)) :
    set2d img r c v = some (img.set r.toNat ((img.getD r.toNat []).set c.toNat v)) := by
  unfold set2d
  rw [npIndex_of_inrange h0r h1r]
  dsimp only
  rw [npIndex_of_inrange h0c h1c]

/-- Writing one cell never changes the shape. -/
theorem setRow_shape (img : List (List ℤ)) (ri : ℕ) (row : List ℤ) (ci : ℕ) (v : ℤ)
    (hrow : row.length = (img.getD ri []).length) :
    (img.set ri (row.set ci v)).length = img.length ∧
    ∀ k : ℕ, ((img.set ri (row.set ci v)).getD k []).length = (img.getD k []).length := by
  refine ⟨List.length_set img ri _, fun k => ?_⟩
  by_cases hlt : k < img.length
  · have hlt2 : k < (img.set ri (row.set ci v)).length := by simpa using hlt
    rw [List.getD_eq_getElem (img.set ri (row.set ci v)) [] hlt2,
      List.getD_eq_getElem img [] hlt]
    by_cases hk : ri = k
    · subst hk
      rw [List.getElem_set_self hlt2, List.length_set]
      rw [List.getD_eq_getElem img [] hlt] at hrow
      exact hrow
    · rw [List.getElem_set_ne hk _]
  · have hlt2 : ¬ k < (img.set ri (row.set ci v)).length := by simpa using hlt
    rw [List.getD_eq_default (img.set ri (row.set ci v)) [] (not_lt.mp hlt2),
      List.getD_eq_default img [] (not_lt.mp hlt)]

theorem cellD_set_self {img : List (List ℤ)} {ri ci : ℕ} {v : ℤ}
    (hr : ri < img.length) (hc : ci < (img.getD ri []).length) :
    cellD (img.set ri ((img.getD ri []).set ci v)) ri ci = v := by
  unfold cellD
  have hlen : ri < (img.set ri ((img.getD ri []).set ci v)).length := by simpa using hr
  rw [List.getD_eq_getElem (img.set ri ((img.getD ri []).set ci v)) [] hlen,
    List.getElem_set_self hlen]
  have hlen2 : ci < ((img.getD ri []).set ci v).length := by simpa using hc
  rw [List.getD_eq_getElem ((img.getD ri []).set ci v) (-1) hlen2,
    List.getElem_set_self hlen2]

theorem cellD_set_other {img : List (List ℤ)} {ri ci : ℕ} {v : ℤ} (i j : ℕ)
    (hne : (i, j) ≠ (ri, ci)) :
    cellD (img.set ri ((img.getD ri []).set ci v)) i j = cellD img i j := by
  unfold cellD
  by_cases hlt : i < img.length
  · have hlt2 : i < (img.set ri ((img.getD ri []).set ci v)).length := by simpa using hlt
    rw [List.getD_eq_getElem (img.set ri ((img.getD ri []).set ci v)) [] hlt2,
      List.getD_eq_getElem img [] hlt]
    by_cases hi : ri = i
    · subst hi
      have hj : j ≠ ci := fun hj => hne (by rw [hj])
      rw [List.getElem_set_self hlt2]
      have hg : img.getD ri [] = img[ri] := List.getD_eq_getElem img [] hlt
      rw [hg]
      by_cases hjl : j < img[ri].length
      · rw [List.getD_eq_getElem (img[ri].set ci v) (-1) (by simpa using hjl),
          List.getElem_set_ne (Ne.symm hj) _, List.getD_eq_getElem img[ri] (-1) hjl]
      · rw [List.getD_eq_default (img[ri].set ci v) (-1) (by simpa using not_lt.mp hjl),
          List.getD_eq_default img[ri] (-1) (not_lt.mp hjl)]
    · rw [List.getElem_set_ne hi _]
  · have hlt2 : ¬ i < (img.set ri ((img.getD ri []).set ci v)).length := by simpa using hlt
    rw [List.getD_eq_default (img.set ri ((img.getD ri []).set ci v)) [] (not_lt.mp hlt2),
      List.getD_eq_default img [] (not_lt.mp hlt)]

/-- A rasterization that succeeds preserves the array shape. -/
theorem rasterize_shape (res ox oy : ℚ) (E : List ((ℚ × ℚ) × Bool))
    {img img2 : List (List ℤ)} (h : rasterize res ox oy E img = .ok img2) :
    img2.length = img.length ∧
    ∀ k : ℕ, (img2.getD k []).length = (img.getD k []).length := by
  induction E generalizing img with
  | nil => cases h; exact ⟨rfl, fun _ => rfl⟩
  | cons en rest ih =>
    rw [rasterize] at h
    cases hs : set2d img (pyRound ((en.1.2 - oy) / res)) (pyRound ((en.1.1 - ox) / res))
        (if en.2 then 100 else 0) with
    | none => rw [hs] at h; cases h
    | some img1 =>
      rw [hs] at h
      dsimp only at h
      obtain ⟨h1, h2⟩ := ih h
      -- relate img1's shape to img's
      unfold set2d at hs
      cases hn1 : npIndex img.length (pyRound ((en.1.2 - oy) / res)) with
      | none => rw [hn1] at hs; cases hs
      | some ri =>
        rw [hn1] at hs
        dsimp only at hs
        cases hn2 : npIndex (img.getD ri []).length (pyRound ((en.1.1 - ox) / res)) with
        | none => rw [hn2] at hs; cases hs
        | some ci =>
          rw [hn2] at hs
          dsimp only at hs
          cases hs
          obtain ⟨hl, hrows⟩ := setRow_shape img ri (img.getD ri []) ci
            (if en.2 = true then 100 else 0) rfl
          constructor
          · rw [h1]
            exact hl
          · intro k
            rw [h2 k]
            exact hrows k

theorem rasterize_ok_of_inrange (res ox oy : ℚ) (E : List ((ℚ × ℚ) × Bool))
    (img : List (List ℤ))
    (h : ∀ e ∈ E, 0 ≤ entryRow res oy e ∧ entryRow res oy e < (img.length : ℤ) ∧
      0 ≤ entryCol res ox e ∧
      entryCol res ox e < (((img.getD (entryRow res oy e).toNat []).length : ℤ))) :
    ∃ img2, rasterize res ox oy E img = .ok img2 := by
  induction E generalizing img with
  | nil => exact ⟨img, rfl⟩
  | cons en rest ih =>
    obtain ⟨h0r, h1r, h0c, h1c⟩ := h en (by simp)
    rw [rasterize]
    have hrw1 : pyRound ((en.1.2 - oy) / res) = entryRow res oy en := rfl
    have hrw2 : pyRound ((en.1.1 - ox) / res) = entryCol res ox en := rfl
    rw [hrw1, hrw2, set2d_some_of_inrange img _ h0r h1r h0c h1c]
    dsimp only
    apply ih
    intro e he
    obtain ⟨a, b, c, d⟩ := h e (List.mem_cons_of_mem en he)
    obtain ⟨hl, hrows⟩ := setRow_shape img (entryRow res oy en).toNat
      (img.getD (entryRow res oy en).toNat []) (entryCol res ox en).toNat
      (if en.2 = true then 100 else 0) rfl
    refine ⟨a, ?_, c, ?_⟩
    · rw [hl]
      exact b
    · rw [hrows _]
      exact d

/-- Cells that no entry targets keep their previous value (for entries with
non-negative indices). -/
theorem rasterize_not_written (res ox oy : ℚ) {E : List ((ℚ × ℚ) × Bool)}
    {img img2 : List (List ℤ)} (h : rasterize res ox oy E img = .ok img2) (i j : ℕ)
    (hE : ∀ e ∈ E, 0 ≤ entryRow res oy e ∧ 0 ≤ entryCol res ox e ∧
      ((entryRow res oy e).toNat, (entryCol res ox e).toNat) ≠ (i, j)) :
    cellD img2 i j = cellD img i j := by
  induction E generalizing img with
  | nil => cases h; rfl
  | cons en rest ih =>
    obtain ⟨h0r, h0c, hne⟩ := hE en (by simp)
    rw [rasterize] at h
    cases hs : set2d img (pyRound ((en.1.2 - oy) / res)) (pyRound ((en.1.1 - ox) / res))
        (if en.2 then 100 else 0) with
    | none => rw [hs] at h; cases h
    | some img1 =>
      rw [hs] at h
      dsimp only at h
      have hinv := set2d_inv h0r h0c hs
      rw [ih h (fun e he => hE e (List.mem_cons_of_mem en he))]
      rw [hinv.2.2]
      exact cellD_set_other i j (Ne.symm hne)

theorem rasterize_append (res ox oy : ℚ) (E1 E2 : List ((ℚ × ℚ) × Bool))
    (img : List (List ℤ)) :
    rasterize res ox oy (E1 ++ E2) img =
      match rasterize res ox oy E1 img with
      | .ok m => rasterize res ox oy E2 m
      | .error e => .error e := by
  induction E1 generalizing img with
  | nil => simp [rasterize]
  | cons en rest ih =>
    rw [List.cons_append, rasterize, rasterize]
    cases hs : set2d img (pyRound ((en.1.2 - oy) / res)) (pyRound ((en.1.1 - ox) / res))
        (if en.2 then 100 else 0) with
    | none => rfl
    | some img1 => exact ih img1

/-- The last entry written to a cell determines its final value. -/
theorem rasterize_last_writer (res ox oy : ℚ) (l1 l2 : List ((ℚ × ℚ) × Bool))
    (en : (ℚ × ℚ) × Bool) {img img2 : List (List ℤ)}
    (h : rasterize res ox oy (l1 ++ en :: l2) img = .ok img2)
    (h0r : 0 ≤ entryRow res oy en) (h0c : 0 ≤ entryCol res ox en)
    (hl2 : ∀ e ∈ l2, 0 ≤ entryRow res oy e ∧ 0 ≤ entryCol res ox e ∧
      ((entryRow res oy e).toNat, (entryCol res ox e).toNat) ≠
        ((entryRow res oy en).toNat, (entryCol res ox en).toNat)) :
    cellD img2 (entryRow res oy en).toNat (entryCol res ox en).toNat =
      (if en.2 then 100 else 0) := by
  rw [rasterize_append] at h
  cases h1 : rasterize res ox oy l1 img with
  | error e => rw [h1] at h; cases h
  | ok m1 =>
    rw [h1] at h
    dsimp only at h
    rw [rasterize] at h
    cases hs : set2d m1 (pyRound ((en.1.2 - oy) / res)) (pyRound ((en.1.1 - ox) / res))
        (if en.2 then 100 else 0) with
    | none => rw [hs] at h; cases h
    | some m2 =>
      rw [hs] at h
      dsimp only at h
      have hinv := set2d_inv h0r h0c hs
      rw [rasterize_not_written res ox oy h _ _ hl2, hinv.2.2]
      exact cellD_set_self hinv.1 hinv.2.1

theorem cellD_replicate (n m : ℕ) (v : ℤ) (i j : ℕ) :
    cellD (List.replicate n (List.replicate m v)) i j = if i < n ∧ j < m then v else -1 := by
  unfold cellD
  by_cases hi : i < n
  · have h1 : i < (List.replicate n (List.replicate m v)).length := by simpa using hi
    rw [List.getD_eq_getElem (List.replicate n (List.replicate m v)) [] h1]
    simp only [List.getElem_replicate]
    by_cases hj : j < m
    · have h2 : j < (List.replicate m v).length := by simpa using hj
      rw [List.getD_eq_getElem (List.replicate m v) (-1) h2]
      simp [List.getElem_replicate, hi, hj]
    · rw [List.getD_eq_default (List.replicate m v) (-1) (by simpa using not_lt.mp hj)]
      simp [hj]
  · rw [List.getD_eq_default (List.replicate n (List.replicate m v)) []
      (by simpa using not_lt.mp hi)]
    simp [hi]

/-! ### Crop scan lemmas -/

theorem foldl_pair_split {α : Type} (φ : ℕ × ℕ → α → ℕ × ℕ) (f g : ℕ → α → ℕ)
    (hf : ∀ st x, (φ st x).1 = f st.1 x) (hg : ∀ st x, (φ st x).2 = g st.2 x)
    (l : List α) (ab : ℕ × ℕ) :
    l.foldl φ ab = (l.foldl f ab.1, l.foldl g ab.2) := by
  induction l generalizing ab with
  | nil => rfl
  | cons x xs ih =>
    rw [List.foldl_cons, List.foldl_cons, List.foldl_cons, ih (φ ab x), hf, hg]

theorem foldl_scanMin_eq {α : Type} (l : List α) (P : α → Prop) [DecidablePred P]
    (f : α → ℕ) (a : ℕ) :
    l.foldl (fun mn y => if P y ∧ f y < mn then f y else mn) a =
      ((l.filter (fun y => decide (P y))).map f).foldl min a := by
  induction l generalizing a with
  | nil => rfl
  | cons x xs ih =>
    rw [List.foldl_cons, List.filter_cons]
    by_cases h : P x
    · have hdec : decide (P x) = true := by simpa using h
      rw [if_pos hdec, List.map_cons, List.foldl_cons, ih]
      congr 1
      by_cases hlt : f x < a
      · rw [if_pos ⟨h, hlt⟩, min_eq_right (le_of_lt hlt)]
      · rw [if_neg (fun hc => hlt hc.2), min_eq_left (not_lt.mp hlt)]
    · have hdec : ¬ (decide (P x) = true) := by simpa using h
      have hn1 : ¬ (P x ∧ f x < a) := fun hc => h hc.1
      rw [if_neg hn1, if_neg hdec, ih]

theorem foldl_scanMax_eq {α : Type} (l : List α) (P : α → Prop) [DecidablePred P]
    (f : α → ℕ) (a : ℕ) :
    l.foldl (fun mx y => if P y ∧ mx < f y then f y else mx) a =
      ((l.filter (fun y => decide (P y))).map f).foldl max a := by
  induction l generalizing a with
  | nil => rfl
  | cons x xs ih =>
    rw [List.foldl_cons, List.filter_cons]
    by_cases h : P x
    · have hdec : decide (P x) = true := by simpa using h
      rw [if_pos hdec, List.map_cons, List.foldl_cons, ih]
      congr 1
      by_cases hlt : a < f x
      · rw [if_pos ⟨h, hlt⟩, max_eq_right (le_of_lt hlt)]
      · rw [if_neg (fun hc => hlt hc.2), max_eq_left (not_lt.mp hlt)]
    · have hdec : ¬ (decide (P x) = true) := by simpa using h
      have hn1 : ¬ (P x ∧ a < f x) := fun hc => h hc.1
      rw [if_neg hn1, if_neg hdec, ih]

theorem foldl_scanMin_spec {α : Type} (l : List α) (P : α → Prop) [DecidablePred P]
    (f : α → ℕ) (a : ℕ) (hne : ∃ x ∈ l, P x) (hlt : ∀ x ∈ l, P x → f x < a) :
    (∃ x ∈ l, P x ∧
      f x = l.foldl (fun mn y => if P y ∧ f y < mn then f y else mn) a) ∧
    (∀ x ∈ l, P x →
      l.foldl (fun mn y => if P y ∧ f y < mn then f y else mn) a ≤ f x) := by
  rw [foldl_scanMin_eq]
  obtain ⟨x0, hx0, hP0⟩ := hne
  have hmem0 : f x0 ∈ (l.filter (fun y => decide (P y))).map f :=
    List.mem_map_of_mem f (List.mem_filter.mpr ⟨hx0, by simpa using hP0⟩)
  have hle0 := foldl_min_le_mem a hmem0
  constructor
  · rcases List.mem_cons.mp
        (foldl_min_mem ((l.filter (fun y => decide (P y))).map f) a) with h | h
    · exfalso
      have := hlt x0 hx0 hP0
      omega
    · rcases List.mem_map.mp h with ⟨y, hy, hfy⟩
      rcases List.mem_filter.mp hy with ⟨hyl, hyP⟩
      exact ⟨y, hyl, by simpa using hyP, hfy⟩
  · intro x hx hP
    exact foldl_min_le_mem a (List.mem_map_of_mem f (List.mem_filter.mpr ⟨hx, by simpa using hP⟩))

theorem foldl_scanMax_spec {α : Type} (l : List α) (P : α → Prop) [DecidablePred P]
    (f : α → ℕ) (hne : ∃ x ∈ l, P x) :
    (∃ x ∈ l, P x ∧
      f x = l.foldl (fun mx y => if P y ∧ mx < f y then f y else mx) 0) ∧
    (∀ x ∈ l, P x →
      f x ≤ l.foldl (fun mx y => if P y ∧ mx < f y then f y else mx) 0) := by
  rw [foldl_scanMax_eq]
  obtain ⟨x0, hx0, hP0⟩ := hne
  have hmem0 : f x0 ∈ (l.filter (fun y => decide (P y))).map f :=
    List.mem_map_of_mem f (List.mem_filter.mpr ⟨hx0, by simpa using hP0⟩)
  have hge0 := foldl_max_mem_le 0 hmem0
  constructor
  · rcases List.mem_cons.mp
        (foldl_max_mem ((l.filter (fun y => decide (P y))).map f) 0) with h | h
    · exact ⟨x0, hx0, hP0, by omega⟩
    · rcases List.mem_map.mp h with ⟨y, hy, hfy⟩
      rcases List.mem_filter.mp hy with ⟨hyl, hyP⟩
      exact ⟨y, hyl, by simpa using hyP, hfy⟩
  · intro x hx hP
    exact foldl_max_mem_le 0 (List.mem_map_of_mem f (List.mem_filter.mpr ⟨hx, by simpa using hP⟩))

theorem if_lt_eq_max (a b : ℕ) : (if a < b then b else a) = max a b := by
  split_ifs with h <;> omega

theorem colScanStep_eq (img : List (List ℤ)) (w : ℕ) :
    colScanStep img w = fun st ij =>
      (if cellD img ij.1 ij.2 ≠ -1 ∧ ij.2 < st.1 then ij.2 else st.1,
       if cellD img ij.1 (w - ij.2 - 1) ≠ -1 ∧ st.2 < w - ij.2 - 1
        then w - ij.2 - 1 else st.2) := rfl

theorem rowScanStep_eq (img : List (List ℤ)) (h : ℕ) :
    rowScanStep img h = fun st ji =>
      (if cellD img ji.2 ji.1 ≠ -1 ∧ ji.2 < st.1 then ji.2 else st.1,
       if cellD img (h - ji.2 - 1) ji.1 ≠ -1 ∧ st.2 < h - ji.2 - 1
        then h - ji.2 - 1 else st.2) := rfl

/-- The first crop scan computes the extreme columns holding a known cell. -/
theorem colScan_spec (img : List (List ℤ)) (h w : ℕ)
    (hknown : ∃ i, i < h ∧ ∃ j, j < w ∧ cellD img i j ≠ -1) :
    (∃ i, i < h ∧ cellD img i ((pairs h w).foldl (colScanStep img w) (w, 0)).1 ≠ -1) ∧
    (∃ i, i < h ∧ cellD img i ((pairs h w).foldl (colScanStep img w) (w, 0)).2 ≠ -1) ∧
    (∀ i j, i < h → j < w → cellD img i j ≠ -1 →
      ((pairs h w).foldl (colScanStep img w) (w, 0)).1 ≤ j ∧
      j ≤ ((pairs h w).foldl (colScanStep img w) (w, 0)).2) := by
  obtain ⟨i0, hi0, j0, hj0, hc0⟩ := hknown
  have hsplit : (pairs h w).foldl (colScanStep img w) (w, 0) =
      ((pairs h w).foldl
        (fun mn ij => if cellD img ij.1 ij.2 ≠ -1 ∧ ij.2 < mn then ij.2 else mn) w,
       (pairs h w).foldl
        (fun mx ij => if cellD img ij.1 (w - ij.2 - 1) ≠ -1 ∧ mx < w - ij.2 - 1
          then w - ij.2 - 1 else mx) 0) :=
    foldl_pair_split _ _ _ (fun st x => rfl) (fun st x => rfl) _ _
  rw [hsplit]
  dsimp only
  obtain ⟨⟨xm, hxm, hPm, hfm⟩, hminle⟩ :=
    foldl_scanMin_spec (pairs h w) (fun ij => cellD img ij.1 ij.2 ≠ -1)
      (fun ij => ij.2) w
      ⟨(i0, j0), mem_pairs.mpr ⟨hi0, hj0⟩, hc0⟩
      (fun x hx _ => (mem_pairs.mp hx).2)
  obtain ⟨⟨xM, hxM, hPM, hfM⟩, hmaxge⟩ :=
    foldl_scanMax_spec (pairs h w) (fun ij => cellD img ij.1 (w - ij.2 - 1) ≠ -1)
      (fun ij => w - ij.2 - 1)
      ⟨(i0, w - 1 - j0), mem_pairs.mpr ⟨hi0, by omega⟩, by
        have hh : w - (w - 1 - j0) - 1 = j0 := by omega
        simpa [hh] using hc0⟩
  refine ⟨⟨xm.1, (mem_pairs.mp hxm).1, hfm ▸ hPm⟩,
    ⟨xM.1, (mem_pairs.mp hxM).1, hfM ▸ hPM⟩, ?_⟩
  intro i j hi hj hc
  refine ⟨hminle (i, j) (mem_pairs.mpr ⟨hi, hj⟩) hc, ?_⟩
  have hh : w - (w - 1 - j) - 1 = j := by omega
  have hx := hmaxge (i, w - 1 - j) (mem_pairs.mpr ⟨hi, by omega⟩)
    (by simpa [hh] using hc)
  simpa [hh] using hx

/-- The second crop scan computes the extreme rows holding a known cell. -/
theorem rowScan_spec (img : List (List ℤ)) (h w : ℕ)
    (hknown : ∃ i, i < h ∧ ∃ j, j < w ∧ cellD img i j ≠ -1) :
    (∃ j, j < w ∧ cellD img ((pairs w h).foldl (rowScanStep img h) (h, 0)).1 j ≠ -1) ∧
    (∃ j, j < w ∧ cellD img ((pairs w h).foldl (rowScanStep img h) (h, 0)).2 j ≠ -1) ∧
    (∀ i j, i < h → j < w → cellD img i j ≠ -1 →
      ((pairs w h).foldl (rowScanStep img h) (h, 0)).1 ≤ i ∧
      i ≤ ((pairs w h).foldl (rowScanStep img h) (h, 0)).2) := by
  obtain ⟨i0, hi0, j0, hj0, hc0⟩ := hknown
  have hsplit : (pairs w h).foldl (rowScanStep img h) (h, 0) =
      ((pairs w h).foldl
        (fun mn ji => if cellD img ji.2 ji.1 ≠ -1 ∧ ji.2 < mn then ji.2 else mn) h,
       (pairs w h).foldl
        (fun mx ji => if cellD img (h - ji.2 - 1) ji.1 ≠ -1 ∧ mx < h - ji.2 - 1
          then h - ji.2 - 1 else mx) 0) :=
    foldl_pair_split _ _ _ (fun st x => rfl) (fun st x => rfl) _ _
  rw [hsplit]
  dsimp only
  obtain ⟨⟨xm, hxm, hPm, hfm⟩, hminle⟩ :=
    foldl_scanMin_spec (pairs w h) (fun ji => cellD img ji.2 ji.1 ≠ -1)
      (fun ji => ji.2) h
      ⟨(j0, i0), mem_pairs.mpr ⟨hj0, hi0⟩, hc0⟩
      (fun x hx _ => (mem_pairs.mp hx).2)
  obtain ⟨⟨xM, hxM, hPM, hfM⟩, hmaxge⟩ :=
    foldl_scanMax_spec (pairs w h) (fun ji => cellD img (h - ji.2 - 1) ji.1 ≠ -1)
      (fun ji => h - ji.2 - 1)
      ⟨(j0, h - 1 - i0), mem_pairs.mpr ⟨hj0, by omega⟩, by
        have hh : h - (h - 1 - i0) - 1 = i0 := by omega
        simpa [hh] using hc0⟩
  refine ⟨⟨xm.1, (mem_pairs.mp hxm).1, hfm ▸ hPm⟩,
    ⟨xM.1, (mem_pairs.mp hxM).1, hfM ▸ hPM⟩, ?_⟩
  intro i j hi hj hc
  refine ⟨hminle (j, i) (mem_pairs.mpr ⟨hj, hi⟩) hc, ?_⟩
  have hh : h - (h - 1 - i) - 1 = i := by omega
  have hx := hmaxge (j, h - 1 - i) (mem_pairs.mpr ⟨hj, by omega⟩)
    (by simpa [hh] using hc)
  simpa [hh] using hx

/-! ## Claim theorems: cropping -/

/-- C6: with `crop = true` and at least one known cell, `get_map_img` returns
the Python sub-grid `img[min_row-padding : max_row+padding,
min_col-padding : max_col+padding]` of the reshaped grid, where
`[min_row,max_row] × [min_col,max_col]` is the tightest bounding box of the
cells `≠ -1` and `min_row`, `min_col` are first clamped up to `padding`. -/
theorem C6_crop_padded_bounding_box (d : List ℤ) (h w padding : ℕ)
    (hlen : d.length = h * w)
    (hknown : ∃ i, i < h ∧ ∃ j, j < w ∧ cellD (reshape d h w) i j ≠ -1) :
    ∃ mnr mxr mnc mxc : ℕ,
      (∃ j, j < w ∧ cellD (reshape d h w) mnr j ≠ -1) ∧
      (∃ j, j < w ∧ cellD (reshape d h w) mxr j ≠ -1) ∧
      (∃ i, i < h ∧ cellD (reshape d h w) i mnc ≠ -1) ∧
      (∃ i, i < h ∧ cellD (reshape d h w) i mxc ≠ -1) ∧
      (∀ i j, i < h → j < w → cellD (reshape d h w) i j ≠ -1 →
        mnr ≤ i ∧ i ≤ mxr ∧ mnc ≤ j ∧ j ≤ mxc) ∧
      get_map_img d (h, w) true padding =
        .ok (crop2d (reshape d h w) (max mnr padding - padding) (mxr + padding)
          (max mnc padding - padding) (mxc + padding)) := by
  obtain ⟨hc1, hc2, hc3⟩ := colScan_spec (reshape d h w) h w hknown
  obtain ⟨hr1, hr2, hr3⟩ := rowScan_spec (reshape d h w) h w hknown
  refine ⟨((pairs w h).foldl (rowScanStep (reshape d h w) h) (h, 0)).1,
    ((pairs w h).foldl (rowScanStep (reshape d h w) h) (h, 0)).2,
    ((pairs h w).foldl (colScanStep (reshape d h w) w) (w, 0)).1,
    ((pairs h w).foldl (colScanStep (reshape d h w) w) (w, 0)).2,
    hr1, hr2, hc1, hc2, ?_, ?_⟩
  · intro i j hi hj hc
    obtain ⟨ha, hb⟩ := hr3 i j hi hj hc
    obtain ⟨ha', hb'⟩ := hc3 i j hi hj hc
    exact ⟨ha, hb, ha', hb'⟩
  · unfold get_map_img
    rw [if_neg (show ¬ (d.length ≠ (h, w).1 * (h, w).2) by simpa using hlen)]
    dsimp only
    rw [if_lt_eq_max, if_lt_eq_max]
    rfl

/-- Witness for C6 at a concrete 2×2 grid with one known cell. -/
theorem C6_crop_padded_bounding_box_witness :
    ∃ mnr mxr mnc mxc : ℕ,
      (∃ j, j < 2 ∧ cellD (reshape [-1, 0, -1, -1] 2 2) mnr j ≠ -1) ∧
      (∃ j, j < 2 ∧ cellD (reshape [-1, 0, -1, -1] 2 2) mxr j ≠ -1) ∧
      (∃ i, i < 2 ∧ cellD (reshape [-1, 0, -1, -1] 2 2) i mnc ≠ -1) ∧
      (∃ i, i < 2 ∧ cellD (reshape [-1, 0, -1, -1] 2 2) i mxc ≠ -1) ∧
      (∀ i j, i < 2 → j < 2 → cellD (reshape [-1, 0, -1, -1] 2 2) i j ≠ -1 →
        mnr ≤ i ∧ i ≤ mxr ∧ mnc ≤ j ∧ j ≤ mxc) ∧
      get_map_img [-1, 0, -1, -1] (2, 2) true 0 =
        .ok (crop2d (reshape [-1, 0, -1, -1] 2 2) (max mnr 0 - 0) (mxr + 0)
          (max mnc 0 - 0) (mxc + 0)) :=
  C6_crop_padded_bounding_box [-1, 0, -1, -1] 2 2 0 (by decide)
    ⟨0, by decide, 1, by decide, by decide⟩

/-- C7 (exercising the failing input): cropping the already-tight 1×1 grid
`[[0]]` with `padding = 0` returns the empty grid, not the grid unchanged:
the upper slice bounds `max_row+padding`, `max_col+padding` are exclusive. -/
theorem C7_tight_crop_drops_last_row_and_col :
    get_map_img [0] (1, 1) true 0 = .ok [] := by
  rfl

/-! ### All-unknown inputs -/

theorem visitFold_all_unknown (t : ℤ) (st : MState) (l : List (ℤ × ℚ × ℚ))
    (h : ∀ e ∈ l, e.1 = -1) : visitFold t st l = st := by
  induction l generalizing st with
  | nil => rfl
  | cons e rest ih =>
    rw [visitFold_cons, visitStep, if_pos (h e (by simp))]
    exact ih st (fun x hx => h x (List.mem_cons_of_mem e hx))

theorem allVisits_all_unknown (d : List (List ℤ)) (r : List ℚ) (o : List (ℚ × ℚ))
    (s : List (ℕ × ℕ))
    (hsz : ∀ k < d.length,
      (d.getD k []).length = (s.getD k (0, 0)).1 * (s.getD k (0, 0)).2)
    (hall : ∀ k < d.length, ∀ v ∈ d.getD k [], v = -1) :
    ∀ e ∈ allVisits d r o s, e.1 = -1 := by
  intro e he
  rcases List.mem_flatMap.mp he with ⟨k, hk, hek⟩
  have hkd : k < d.length := List.mem_range.mp hk
  rcases List.mem_map.mp hek with ⟨ij, hij, hije⟩
  rcases mem_pairs.mp hij with ⟨hi, hj⟩
  have hidx : ij.1 + ij.2 * (s.getD k (0, 0)).2 < (d.getD k []).length := by
    rw [hsz k hkd]
    have hlt : ij.1 + ij.2 * (s.getD k (0, 0)).2 < (ij.2 + 1) * (s.getD k (0, 0)).2 := by
      rw [add_mul, one_mul]; omega
    have hle : (ij.2 + 1) * (s.getD k (0, 0)).2 ≤
        (s.getD k (0, 0)).1 * (s.getD k (0, 0)).2 := Nat.mul_le_mul_right _ (by omega)
    omega
  have he1 : e.1 = (d.getD k []).getD (ij.1 + ij.2 * (s.getD k (0, 0)).2) 0 := by
    rw [← hije]
  rw [he1, List.getD_eq_getElem (d.getD k []) 0 hidx]
  exact hall k hkd _ (List.getElem_mem hidx)

/-! ### Facts about the final scan state -/

theorem lmin_mem {l : List ℚ} {m : ℚ} (h : lmin l = some m) : m ∈ l := by
  cases l with
  | nil => cases h
  | cons x xs =>
    rw [lmin_cons] at h
    cases h
    exact foldl_min_mem xs x

theorem lmax_mem {l : List ℚ} {m : ℚ} (h : lmax l = some m) : m ∈ l := by
  cases l with
  | nil => cases h
  | cons x xs =>
    rw [lmax_cons] at h
    cases h
    exact foldl_max_mem xs x

theorem visitFold_init_min_x (t : ℤ) (l : List (ℤ × ℚ × ℚ)) :
    (visitFold t initState l).min_x = lmin (visitXs l) := by
  have hp := visitFold_bx t initState l
  have h1 := congrArg Prod.fst hp
  dsimp only at h1
  rw [h1, foldl_bStep_fst]
  rfl

theorem visitFold_init_min_y (t : ℤ) (l : List (ℤ × ℚ × ℚ)) :
    (visitFold t initState l).min_y = lmin (visitYs l) := by
  have hp := visitFold_by t initState l
  have h1 := congrArg Prod.fst hp
  dsimp only at h1
  rw [h1, foldl_bStep_fst]
  rfl

theorem visitFold_init_max_x_mem (t : ℤ) (l : List (ℤ × ℚ × ℚ)) {M : ℚ}
    (h : (visitFold t initState l).max_x = some M) : M ∈ visitXs l := by
  have hp := visitFold_by t initState l
  have hx := visitFold_bx t initState l
  have h2 := congrArg Prod.snd hx
  dsimp only at h2
  rw [h2] at h
  rcases foldl_bStep_snd_cases (visitXs l) (initState.min_x, initState.max_x) with
    hc | ⟨x, hx', hc⟩
  · rw [h] at hc; simp [initState] at hc
  · rw [h] at hc
    cases hc
    exact hx'

theorem visitFold_init_max_y_mem (t : ℤ) (l : List (ℤ × ℚ × ℚ)) {M : ℚ}
    (h : (visitFold t initState l).max_y = some M) : M ∈ visitYs l := by
  have hy := visitFold_by t initState l
  have h2 := congrArg Prod.snd hy
  dsimp only at h2
  rw [h2] at h
  rcases foldl_bStep_snd_cases (visitYs l) (initState.min_y, initState.max_y) with
    hc | ⟨y, hy', hc⟩
  · rw [h] at hc; simp [initState] at hc
  · rw [h] at hc
    cases hc
    exact hy'

theorem visitCoords_mem (l : List (ℤ × ℚ × ℚ)) {q : ℚ × ℚ} (h : q ∈ visitCoords l) :
    q.1 ∈ visitXs l ∧ q.2 ∈ visitYs l := by
  rcases List.mem_map.mp h with ⟨e, he, hq⟩
  constructor
  · exact List.mem_map.mpr ⟨e, he, by rw [← hq]⟩
  · exact List.mem_map.mpr ⟨e, he, by rw [← hq]⟩

theorem visitFold_grid_keys (t : ℤ) (l : List (ℤ × ℚ × ℚ)) :
    ∀ en ∈ (visitFold t initState l).grid, en.1 ∈ visitCoords l := by
  intro en hen
  rw [visitFold_grid] at hen
  rcases foldl_dictStep_keys t (knownVisits l) initState.grid en hen with h | h
  · simp [initState] at h
  · exact h

theorem getD_replicate_lt {α : Type} (n : ℕ) (a d : α) {k : ℕ} (h : k < n) :
    (List.replicate n a).getD k d = a := by
  rw [List.getD_eq_getElem (List.replicate n a) d (by simpa using h)]
  simp

/-! ### Key uniqueness in the dictionary -/

theorem lookupDict_eq_none_iff (p : ℚ × ℚ) (g : List ((ℚ × ℚ) × Bool)) :
    lookupDict p g = none ↔ p ∉ g.map Prod.fst := by
  induction g with
  | nil => simp [lookupDict]
  | cons e rest ih =>
    rw [lookupDict]
    by_cases he : e.1 = p
    · rw [if_pos he]
      simp [he]
    · rw [if_neg he]
      simp only [List.map_cons, List.mem_cons, ih]
      constructor
      · intro h hc
        rcases hc with hc | hc
        · exact he hc.symm
        · exact h hc
      · intro h hc
        exact h (Or.inr hc)

theorem dictStep_keys_nodup (t : ℤ) {g : List ((ℚ × ℚ) × Bool)} (e : ℤ × ℚ × ℚ)
    (h : (g.map Prod.fst).Nodup) : ((dictStep t g e).map Prod.fst).Nodup := by
  unfold dictStep dictSetTrue dictSetFreeIfAbsent
  split_ifs with ht hp hp
  · have heq : (g.map (fun x => if x.1 = (e.2.1, e.2.2) then ((e.2.1, e.2.2), true)
        else x)).map Prod.fst = g.map Prod.fst := by
      rw [List.map_map]
      apply List.map_congr_left
      intro x _
      by_cases hx : x.1 = (e.2.1, e.2.2)
      · simp [hx]
      · simp [hx]
    rw [heq]
    exact h
  · rw [List.map_append, List.nodup_append]
    refine ⟨h, by simp, ?_⟩
    intro a ha hb
    simp only [List.map_cons, List.map_nil, List.mem_singleton] at hb
    subst hb
    rw [Option.not_isSome_iff_eq_none, lookupDict_eq_none_iff] at hp
    exact hp ha
  · exact h
  · rw [List.map_append, List.nodup_append]
    refine ⟨h, by simp, ?_⟩
    intro a ha hb
    simp only [List.map_cons, List.map_nil, List.mem_singleton] at hb
    subst hb
    rw [Option.not_isSome_iff_eq_none, lookupDict_eq_none_iff] at hp
    exact hp ha

theorem foldl_dictStep_keys_nodup (t : ℤ) (E : List (ℤ × ℚ × ℚ))
    {g : List ((ℚ × ℚ) × Bool)} (h : (g.map Prod.fst).Nodup) :
    ((E.foldl (dictStep t) g).map Prod.fst).Nodup := by
  induction E generalizing g with
  | nil => exact h
  | cons e rest ih => exact ih (dictStep_keys_nodup t e h)

theorem visitFold_grid_keys_nodup (t : ℤ) (l : List (ℤ × ℚ × ℚ)) :
    (((visitFold t initState l).grid).map Prod.fst).Nodup := by
  rw [visitFold_grid]
  exact foldl_dictStep_keys_nodup t _ (by simp [initState])

theorem lookupDict_split {p : ℚ × ℚ} {g : List ((ℚ × ℚ) × Bool)} {b : Bool}
    (h : lookupDict p g = some b) :
    ∃ l1 l2, g = l1 ++ (p, b) :: l2 ∧ ∀ e ∈ l1, e.1 ≠ p := by
  induction g with
  | nil => cases h
  | cons e rest ih =>
    rw [lookupDict] at h
    by_cases he : e.1 = p
    · rw [if_pos he] at h
      refine ⟨[], rest, ?_, by simp⟩
      have he2 : e.2 = b := by cases h; rfl
      rw [List.nil_append, show (p, b) = e from by rw [← he, ← he2]]
    · rw [if_neg he] at h
      obtain ⟨l1, l2, hg, hl1⟩ := ih h
      refine ⟨e :: l1, l2, by rw [List.cons_append, hg], ?_⟩
      intro x hx
      rcases List.mem_cons.mp hx with rfl | hx'
      · exact he
      · exact hl1 x hx'

/-! ### Structure of a single source's visit sequence -/

theorem pairs_nodup (m n : ℕ) : (pairs m n).Nodup := by
  rw [show pairs m n = (List.range m).product (List.range n) from rfl]
  exact List.Nodup.product (List.nodup_range _) (List.nodup_range _)

theorem pairs_head {m n : ℕ} (hm : 0 < m) (hn : 0 < n) :
    ∃ L, pairs m n = (0, 0) :: L := by
  obtain ⟨m', rfl⟩ : ∃ m', m = m' + 1 := ⟨m - 1, by omega⟩
  obtain ⟨n', rfl⟩ : ∃ n', n = n' + 1 := ⟨n - 1, by omega⟩
  have h1 : pairs (m' + 1) (n' + 1) =
      ((List.range (n' + 1)).map (fun b => ((0 : ℕ), b))) ++
      (((List.range m').map Nat.succ).flatMap
        (fun a => (List.range (n' + 1)).map (fun b => (a, b)))) := by
    rw [pairs, List.range_succ_eq_map]
    rfl
  have h2 : (List.range (n' + 1)).map (fun b => ((0 : ℕ), b)) =
      (0, 0) :: ((List.range n').map Nat.succ).map (fun b => ((0 : ℕ), b)) := by
    rw [List.range_succ_eq_map]
    rfl
  exact ⟨_, by rw [h1, h2, List.cons_append]⟩

theorem knownVisits_cellVisits_mem {d : List ℤ} {res ox oy : ℚ} {h w : ℕ}
    {e : ℤ × ℚ × ℚ} (he : e ∈ knownVisits (cellVisits d res ox oy h w)) :
    ∃ i j, i < w ∧ j < h ∧
      e = (d.getD (i + j * w) 0, ((i : ℚ) * res + ox, (j : ℚ) * res + oy)) ∧
      d.getD (i + j * w) 0 ≠ -1 := by
  have he' := List.mem_of_mem_filter he
  have hknown : e.1 ≠ -1 := by simpa using List.of_mem_filter he
  rcases List.mem_map.mp he' with ⟨ij, hij, hije⟩
  rcases mem_pairs.mp hij with ⟨hi, hj⟩
  refine ⟨ij.1, ij.2, hi, hj, hije.symm, ?_⟩
  rw [← hije] at hknown
  exact hknown

theorem knownVisits_cellVisits_intro (d : List ℤ) (res ox oy : ℚ) (h w : ℕ)
    {i j : ℕ} (hi : i < w) (hj : j < h) (hk : d.getD (i + j * w) 0 ≠ -1) :
    (d.getD (i + j * w) 0, ((i : ℚ) * res + ox, (j : ℚ) * res + oy)) ∈
      knownVisits (cellVisits d res ox oy h w) := by
  apply List.mem_filter.mpr
  refine ⟨?_, by simpa using hk⟩
  exact List.mem_map.mpr ⟨(i, j), mem_pairs.mpr ⟨hi, hj⟩, rfl⟩

theorem cellVisits_coords_nodup (d : List ℤ) (res ox oy : ℚ) (h w : ℕ)
    (hres : res ≠ 0) :
    ((knownVisits (cellVisits d res ox oy h w)).map
      (fun e => (e.2.1, e.2.2))).Nodup := by
  have hsub : (knownVisits (cellVisits d res ox oy h w)).Sublist
      (cellVisits d res ox oy h w) := List.filter_sublist _
  refine List.Nodup.sublist (List.Sublist.map _ hsub) ?_
  rw [cellVisits, List.map_map]
  refine List.Nodup.map ?_ (pairs_nodup w h)
  intro a b hab
  simp only [Function.comp] at hab
  rw [Prod.ext_iff] at hab
  obtain ⟨h1, h2⟩ := hab
  dsimp only at h1 h2
  have hx : ((a.1 : ℚ)) = (b.1 : ℚ) :=
    mul_right_cancel₀ hres (by linarith [h1])
  have hy : ((a.2 : ℚ)) = (b.2 : ℚ) :=
    mul_right_cancel₀ hres (by linarith [h2])
  have hx' : a.1 = b.1 := Nat.cast_injective hx
  have hy' : a.2 = b.2 := Nat.cast_injective hy
  exact Prod.ext hx' hy'

theorem foldl_dictStep_fresh (t : ℤ) (E : List (ℤ × ℚ × ℚ))
    (g : List ((ℚ × ℚ) × Bool))
    (hfresh : ∀ e ∈ E, lookupDict (e.2.1, e.2.2) g = none)
    (hnodup : (E.map (fun e => (e.2.1, e.2.2))).Nodup) :
    E.foldl (dictStep t) g =
      g ++ E.map (fun e => ((e.2.1, e.2.2), decide (t < e.1))) := by
  induction E generalizing g with
  | nil => simp
  | cons e rest ih =>
    rw [List.foldl_cons]
    have hl : lookupDict (e.2.1, e.2.2) g = none := hfresh e (List.mem_cons_self _ _)
    have hstep : dictStep t g e = g ++ [((e.2.1, e.2.2), decide (t < e.1))] := by
      unfold dictStep dictSetTrue dictSetFreeIfAbsent
      split_ifs with ht h1 h1
      · rw [hl] at h1; cases h1
      · simp [ht]
      · rw [hl] at h1; cases h1
      · simp [ht]
    have hnodup' : ((e.2.1, e.2.2) ∉ rest.map (fun e => (e.2.1, e.2.2))) ∧
        (rest.map (fun e => (e.2.1, e.2.2))).Nodup := by
      rw [List.map_cons] at hnodup
      exact List.nodup_cons.mp hnodup
    rw [hstep, ih (g ++ [((e.2.1, e.2.2), decide (t < e.1))]) ?_ hnodup'.2]
    · rw [List.map_cons, List.append_assoc]
      rfl
    · intro e' he'
      rw [lookupDict_append, hfresh e' (List.mem_cons_of_mem _ he')]
      dsimp only
      have hne : ¬ (((e.2.1, e.2.2) : ℚ × ℚ) = (e'.2.1, e'.2.2)) := by
        intro hc
        exact hnodup'.1 (by rw [hc]; exact List.mem_map_of_mem _ he')
      rw [lookupDict, if_neg hne]
      rfl

theorem pyRound_cell_offset (res ox : ℚ) (hres : res ≠ 0) (i : ℕ) :
    pyRound (((i : ℚ) * res + ox - (((0 : ℕ) : ℚ) * res + ox)) / res) = i := by
  have h2 : (i : ℚ) * res + ox - (((0 : ℕ) : ℚ) * res + ox) = (i : ℚ) * res := by
    push_cast
    ring
  rw [h2, mul_div_cancel_right₀ _ hres]
  exact pyRound_natCast i

theorem cellIndex_entry (mnx mny rl : ℚ) (e : (ℚ × ℚ) × Bool) :
    cellIndex (mnx, mny) rl e.1 = (entryRow rl mny e, entryCol rl mnx e) := rfl

/-- When coordinate `p` carries value `b` in the final dictionary and no other
visited coordinate rounds onto `p`'s output cell, the returned array holds
`100` (obstacle) or `0` (free) at that cell according to `b`. -/
theorem merged_cell_value (d : List (List ℤ)) (r : List ℚ) (o : List (ℚ × ℚ))
    (s : List (ℕ × ℕ)) (t : ℤ) (p : ℚ × ℚ) (b : Bool) (mnx mny : ℚ)
    (img : List (List ℤ)) (hv : validInputs d r o s)
    (hok : merge_maps d r o s t = .ok img)
    (hrl : 0 < r.getD (d.length - 1) 0)
    (hmnx : lmin (visitXs (allVisits d r o s)) = some mnx)
    (hmny : lmin (visitYs (allVisits d r o s)) = some mny)
    (hlook : lookupDict p (visitFold t initState (allVisits d r o s)).grid = some b)
    (hnocol : ∀ q ∈ visitCoords (allVisits d r o s), q ≠ p →
      cellIndex (mnx, mny) (r.getD (d.length - 1) 0) q ≠
        cellIndex (mnx, mny) (r.getD (d.length - 1) 0) p) :
    get2dZ img (cellIndex (mnx, mny) (r.getD (d.length - 1) 0) p) =
      (if b then 100 else 0) := by
  have hne : d ≠ [] := by
    intro hd
    subst hd
    rw [show merge_maps [] r o s t = .error .nameError from rfl] at hok
    cases hok
  have hst := mergeState_eq d r o s t hv
  rw [if_neg (show ¬ (d.length = 0) from fun h0 => hne (List.length_eq_zero.mp h0))] at hst
  have hmnx' : (visitFold t initState (allVisits d r o s)).min_x = some mnx := by
    rw [visitFold_init_min_x, hmnx]
  have hmny' : (visitFold t initState (allVisits d r o s)).min_y = some mny := by
    rw [visitFold_init_min_y, hmny]
  rw [merge_maps, hst] at hok
  dsimp only at hok
  rw [if_neg hrl.ne', hmnx', hmny'] at hok
  cases hMx : (visitFold t initState (allVisits d r o s)).max_x with
  | none =>
    rw [hMx] at hok
    cases hMy : (visitFold t initState (allVisits d r o s)).max_y with
    | none => rw [hMy] at hok; simp at hok
    | some My => rw [hMy] at hok; simp at hok
  | some Mx =>
    rw [hMx] at hok
    cases hMy : (visitFold t initState (allVisits d r o s)).max_y with
    | none => rw [hMy] at hok; simp at hok
    | some My =>
      rw [hMy] at hok
      dsimp only at hok
      split_ifs at hok with hval
      cases hres : rasterize (r.getD (d.length - 1) 0) mnx mny
          (visitFold t initState (allVisits d r o s)).grid
          (List.replicate
            (pyRound (|My - mny| / r.getD (d.length - 1) 0) + 1).toNat
            (List.replicate
              (pyRound (|Mx - mnx| / r.getD (d.length - 1) 0) + 1).toNat (-1))) with
      | error e =>
        rw [hres] at hok
        dsimp only at hok
        simp at hok
      | ok img2 =>
        rw [hres] at hok
        dsimp only at hok
        have himg : img2 = img := by cases hok; rfl
        rw [← himg]
        obtain ⟨l1, l2, hsplit, hl1⟩ := lookupDict_split hlook
        have hnd := visitFold_grid_keys_nodup t (allVisits d r o s)
        have hpnotl2 : ∀ e ∈ l2, e.1 ≠ p := by
          rw [hsplit, List.map_append, List.nodup_append] at hnd
          have h2 := hnd.2.1
          rw [List.map_cons] at h2
          have h3 := (List.nodup_cons.mp h2).1
          intro e he hc
          exact h3 (List.mem_map.mpr ⟨e, he, hc⟩)
        have hpmem : ((p, b) : (ℚ × ℚ) × Bool) ∈
            (visitFold t initState (allVisits d r o s)).grid := by
          rw [hsplit]
          exact List.mem_append.mpr (Or.inr (List.mem_cons_self _ _))
        have hpc : p ∈ visitCoords (allVisits d r o s) :=
          visitFold_grid_keys t _ _ hpmem
        obtain ⟨hpx, hpy⟩ := visitCoords_mem _ hpc
        have hprow0 : 0 ≤ entryRow (r.getD (d.length - 1) 0) mny (p, b) :=
          pyRound_nonneg
            (div_nonneg (sub_nonneg.mpr (lmin_le_of_mem hmny hpy)) hrl.le)
        have hpcol0 : 0 ≤ entryCol (r.getD (d.length - 1) 0) mnx (p, b) :=
          pyRound_nonneg
            (div_nonneg (sub_nonneg.mpr (lmin_le_of_mem hmnx hpx)) hrl.le)
        rw [hsplit] at hres
        have hcell := rasterize_last_writer _ _ _ l1 l2 (p, b) hres hprow0 hpcol0
          (by
            intro e he
            have hem : e ∈ (visitFold t initState (allVisits d r o s)).grid := by
              rw [hsplit]
              exact List.mem_append.mpr
                (Or.inr (List.mem_cons_of_mem _ he))
            have heq := visitFold_grid_keys t _ e hem
            obtain ⟨hex, hey⟩ := visitCoords_mem _ heq
            have h0r : 0 ≤ entryRow (r.getD (d.length - 1) 0) mny e :=
              pyRound_nonneg
                (div_nonneg (sub_nonneg.mpr (lmin_le_of_mem hmny hey)) hrl.le)
            have h0c : 0 ≤ entryCol (r.getD (d.length - 1) 0) mnx e :=
              pyRound_nonneg
                (div_nonneg (sub_nonneg.mpr (lmin_le_of_mem hmnx hex)) hrl.le)
            refine ⟨h0r, h0c, ?_⟩
            have hne' : e.1 ≠ p := hpnotl2 e he
            have hidx := hnocol e.1 heq hne'
            rw [cellIndex_entry, cellIndex_entry mnx mny _ (p, b)] at hidx
            intro hcontra
            apply hidx
            have hc1 := congrArg Prod.fst hcontra
            have hc2 := congrArg Prod.snd hcontra
            dsimp only at hc1 hc2
            rw [Prod.ext_iff]
            constructor <;> dsimp only <;> omega)
        rw [show get2dZ img2 (cellIndex (mnx, mny) (r.getD (d.length - 1) 0) p) =
            cellD img2 (entryRow (r.getD (d.length - 1) 0) mny (p, b)).toNat
              (entryCol (r.getD (d.length - 1) 0) mnx (p, b)).toNat from by
          unfold get2dZ
          rw [if_pos ⟨hprow0, hpcol0⟩]
          rfl]
        exact hcell

/-- C5 (amended): merging a single source with `threshold = 70` returns the
input grid re-expressed in its own frame — origin and resolution unchanged,
extent `(height, width)`, values mapped by the threshold rule — provided the
grid is tightly cropped with its cell `(0,0)` known and is not `1×1` (the
`elif` in the bounds update loses the running maxima on grids that fail
these conditions, crashing the merge or shifting the origin). -/
theorem C5_single_source_merge (d : List ℤ) (h w : ℕ) (res ox oy : ℚ)
    (hres : 0 < res) (hlen : d.length = h * w)
    (h00 : d.getD 0 0 ≠ -1)
    (hlastrow : ∃ i, i < w ∧ d.getD (i + (h - 1) * w) 0 ≠ -1)
    (hlastcol : ∃ j, j < h ∧ d.getD ((w - 1) + j * w) 0 ≠ -1)
    (hno11 : ¬ (h = 1 ∧ w = 1)) :
    merge_maps [d] [res] [(ox, oy)] [(h, w)] 70 = .ok (singleExpected d h w 70) ∧
    (visitFold 70 initState (allVisits [d] [res] [(ox, oy)] [(h, w)])).min_x =
      some ox ∧
    (visitFold 70 initState (allVisits [d] [res] [(ox, oy)] [(h, w)])).min_y =
      some oy := by
  obtain ⟨ir, hir, hkr⟩ := hlastrow
  obtain ⟨jc, hjc, hkc⟩ := hlastcol
  have hw1 : 0 < w := by omega
  have hh1 : 0 < h := by omega
  have hA : allVisits [d] [res] [(ox, oy)] [(h, w)] = cellVisits d res ox oy h w := by
    simp [allVisits, List.range_succ]
  obtain ⟨L, hL⟩ := pairs_head hw1 hh1
  have hAcons : cellVisits d res ox oy h w =
      (d.getD 0 0, (((0 : ℕ) : ℚ) * res + ox, ((0 : ℕ) : ℚ) * res + oy)) ::
        L.map (fun ij => (d.getD (ij.1 + ij.2 * w) 0,
          ((ij.1 : ℚ) * res + ox, (ij.2 : ℚ) * res + oy))) := by
    rw [cellVisits, hL, List.map_cons]
    norm_num
  have hknownA : knownVisits (cellVisits d res ox oy h w) =
      (d.getD 0 0, (((0 : ℕ) : ℚ) * res + ox, ((0 : ℕ) : ℚ) * res + oy)) ::
        knownVisits (L.map (fun ij => (d.getD (ij.1 + ij.2 * w) 0,
          ((ij.1 : ℚ) * res + ox, (ij.2 : ℚ) * res + oy)))) := by
    rw [hAcons, knownVisits_cons, if_neg h00]
  have hxs : visitXs (cellVisits d res ox oy h w) =
      (((0 : ℕ) : ℚ) * res + ox) :: visitXs (L.map (fun ij =>
        (d.getD (ij.1 + ij.2 * w) 0,
          ((ij.1 : ℚ) * res + ox, (ij.2 : ℚ) * res + oy)))) := by
    simp only [visitXs, hknownA, List.map_cons]
  have hys : visitYs (cellVisits d res ox oy h w) =
      (((0 : ℕ) : ℚ) * res + oy) :: visitYs (L.map (fun ij =>
        (d.getD (ij.1 + ij.2 * w) 0,
          ((ij.1 : ℚ) * res + ox, (ij.2 : ℚ) * res + oy)))) := by
    simp only [visitYs, hknownA, List.map_cons]
  have hLmem : ∀ ij ∈ L, ij.1 < w ∧ ij.2 < h := by
    intro ij hij
    exact mem_pairs.mp (by rw [hL]; exact List.mem_cons_of_mem _ hij)
  have htailx : ∀ x ∈ visitXs (L.map (fun ij => (d.getD (ij.1 + ij.2 * w) 0,
      ((ij.1 : ℚ) * res + ox, (ij.2 : ℚ) * res + oy)))),
      ∃ i, i < w ∧ x = (i : ℚ) * res + ox := by
    intro x hx
    rcases List.mem_map.mp hx with ⟨e, he, hxe⟩
    rcases List.mem_map.mp (List.mem_of_mem_filter he) with ⟨ij, hij, hije⟩
    refine ⟨ij.1, (hLmem ij hij).1, ?_⟩
    rw [← hxe, ← hije]
  have htaily : ∀ y ∈ visitYs (L.map (fun ij => (d.getD (ij.1 + ij.2 * w) 0,
      ((ij.1 : ℚ) * res + ox, (ij.2 : ℚ) * res + oy)))),
      ∃ j, j < h ∧ y = (j : ℚ) * res + oy := by
    intro y hy
    rcases List.mem_map.mp hy with ⟨e, he, hye⟩
    rcases List.mem_map.mp (List.mem_of_mem_filter he) with ⟨ij, hij, hije⟩
    refine ⟨ij.2, (hLmem ij hij).2, ?_⟩
    rw [← hye, ← hije]
  have hintro : ∀ i j, i < w → j < h → ¬ (i = 0 ∧ j = 0) →
      d.getD (i + j * w) 0 ≠ -1 →
      (d.getD (i + j * w) 0, ((i : ℚ) * res + ox, (j : ℚ) * res + oy)) ∈
        knownVisits (L.map (fun ij => (d.getD (ij.1 + ij.2 * w) 0,
          ((ij.1 : ℚ) * res + ox, (ij.2 : ℚ) * res + oy)))) := by
    intro i j hi hj hne hk
    have hijL : (i, j) ∈ L := by
      have hp : (i, j) ∈ pairs w h := mem_pairs.mpr ⟨hi, hj⟩
      rw [hL] at hp
      rcases List.mem_cons.mp hp with heq | hmem
      · exfalso
        apply hne
        have h1 := congrArg Prod.fst heq
        have h2 := congrArg Prod.snd heq
        exact ⟨h1, h2⟩
      · exact hmem
    exact List.mem_filter.mpr
      ⟨List.mem_map.mpr ⟨(i, j), hijL, rfl⟩, by simpa using hk⟩
  -- first visit and state after it
  have hfold1 : visitFold 70 initState (cellVisits d res ox oy h w) =
      visitFold 70 (visitStep 70 initState
        (d.getD 0 0, (((0 : ℕ) : ℚ) * res + ox, ((0 : ℕ) : ℚ) * res + oy)))
        (L.map (fun ij => (d.getD (ij.1 + ij.2 * w) 0,
          ((ij.1 : ℚ) * res + ox, (ij.2 : ℚ) * res + oy)))) := by
    rw [hAcons, visitFold_cons]
  have hst1x : ((visitStep 70 initState
      (d.getD 0 0, (((0 : ℕ) : ℚ) * res + ox, ((0 : ℕ) : ℚ) * res + oy))).min_x,
      (visitStep 70 initState
      (d.getD 0 0, (((0 : ℕ) : ℚ) * res + ox, ((0 : ℕ) : ℚ) * res + oy))).max_x) =
      (some (((0 : ℕ) : ℚ) * res + ox), none) := by
    have hb := visitStep_bx 70 initState
      (d.getD 0 0, (((0 : ℕ) : ℚ) * res + ox, ((0 : ℕ) : ℚ) * res + oy))
    rw [if_neg h00] at hb
    rw [hb]
    rfl
  have hst1y : ((visitStep 70 initState
      (d.getD 0 0, (((0 : ℕ) : ℚ) * res + ox, ((0 : ℕ) : ℚ) * res + oy))).min_y,
      (visitStep 70 initState
      (d.getD 0 0, (((0 : ℕ) : ℚ) * res + ox, ((0 : ℕ) : ℚ) * res + oy))).max_y) =
      (some (((0 : ℕ) : ℚ) * res + oy), none) := by
    have hb := visitStep_by 70 initState
      (d.getD 0 0, (((0 : ℕ) : ℚ) * res + ox, ((0 : ℕ) : ℚ) * res + oy))
    rw [if_neg h00] at hb
    rw [hb]
    rfl
  have hxall : ∀ x ∈ visitXs (L.map (fun ij => (d.getD (ij.1 + ij.2 * w) 0,
      ((ij.1 : ℚ) * res + ox, (ij.2 : ℚ) * res + oy)))),
      ((0 : ℕ) : ℚ) * res + ox ≤ x := by
    intro x hx
    rcases htailx x hx with ⟨i, hi, rfl⟩
    have h1 : (0 : ℚ) ≤ (i : ℚ) * res := mul_nonneg (Nat.cast_nonneg i) hres.le
    push_cast
    linarith
  have hyall : ∀ y ∈ visitYs (L.map (fun ij => (d.getD (ij.1 + ij.2 * w) 0,
      ((ij.1 : ℚ) * res + ox, (ij.2 : ℚ) * res + oy)))),
      ((0 : ℕ) : ℚ) * res + oy ≤ y := by
    intro y hy
    rcases htaily y hy with ⟨j, hj, rfl⟩
    have h1 : (0 : ℚ) ≤ (j : ℚ) * res := mul_nonneg (Nat.cast_nonneg j) hres.le
    push_cast
    linarith
  have hxpair : ((visitFold 70 initState (cellVisits d res ox oy h w)).min_x,
      (visitFold 70 initState (cellVisits d res ox oy h w)).max_x) =
      (some (((0 : ℕ) : ℚ) * res + ox),
        lmax (visitXs (L.map (fun ij => (d.getD (ij.1 + ij.2 * w) 0,
          ((ij.1 : ℚ) * res + ox, (ij.2 : ℚ) * res + oy)))))) := by
    rw [hfold1, visitFold_bx, hst1x, foldl_bStep_of_min_le _ _ hxall]
    rfl
  have hypair : ((visitFold 70 initState (cellVisits d res ox oy h w)).min_y,
      (visitFold 70 initState (cellVisits d res ox oy h w)).max_y) =
      (some (((0 : ℕ) : ℚ) * res + oy),
        lmax (visitYs (L.map (fun ij => (d.getD (ij.1 + ij.2 * w) 0,
          ((ij.1 : ℚ) * res + ox, (ij.2 : ℚ) * res + oy)))))) := by
    rw [hfold1, visitFold_by, hst1y, foldl_bStep_of_min_le _ _ hyall]
    rfl
  -- the maxima are attained at the far row / column
  have hMx : lmax (visitXs (L.map (fun ij => (d.getD (ij.1 + ij.2 * w) 0,
      ((ij.1 : ℚ) * res + ox, (ij.2 : ℚ) * res + oy))))) =
      some (((w - 1 : ℕ) : ℚ) * res + ox) := by
    apply lmax_eq_of_mem_of_le
    · by_cases hw2 : 2 ≤ w
      · have hm := hintro (w - 1) jc (by omega) hjc (by omega) hkc
        exact List.mem_map.mpr ⟨_, hm, rfl⟩
      · have hww : w = 1 := by omega
        have hh2 : 2 ≤ h := by
          rcases Nat.lt_or_ge h 2 with hlt | hge
          · exfalso; exact hno11 ⟨by omega, hww⟩
          · exact hge
        have hir0 : ir = 0 := by omega
        have hm := hintro ir (h - 1) hir (by omega) (by omega) hkr
        have hx : ((ir : ℚ) * res + ox) ∈ visitXs (L.map (fun ij =>
            (d.getD (ij.1 + ij.2 * w) 0,
              ((ij.1 : ℚ) * res + ox, (ij.2 : ℚ) * res + oy)))) :=
          List.mem_map.mpr ⟨_, hm, rfl⟩
        have heq : ((ir : ℚ) : ℚ) * res + ox = ((w - 1 : ℕ) : ℚ) * res + ox := by
          rw [hir0, hww]
        rw [← heq]
        exact hx
    · intro x hx
      rcases htailx x hx with ⟨i, hi, rfl⟩
      have hcast : (i : ℚ) ≤ ((w - 1 : ℕ) : ℚ) := by
        exact_mod_cast Nat.le_sub_one_of_lt hi
      nlinarith [hres.le]
  have hMy : lmax (visitYs (L.map (fun ij => (d.getD (ij.1 + ij.2 * w) 0,
      ((ij.1 : ℚ) * res + ox, (ij.2 : ℚ) * res + oy))))) =
      some (((h - 1 : ℕ) : ℚ) * res + oy) := by
    apply lmax_eq_of_mem_of_le
    · by_cases hh2 : 2 ≤ h
      · have hm := hintro ir (h - 1) hir (by omega) (by omega) hkr
        exact List.mem_map.mpr ⟨_, hm, rfl⟩
      · have hhh : h = 1 := by omega
        have hw2 : 2 ≤ w := by
          rcases Nat.lt_or_ge w 2 with hlt | hge
          · exfalso; exact hno11 ⟨hhh, by omega⟩
          · exact hge
        have hjc0 : jc = 0 := by omega
        have hm := hintro (w - 1) jc (by omega) hjc (by omega) hkc
        have hy : ((jc : ℚ) * res + oy) ∈ visitYs (L.map (fun ij =>
            (d.getD (ij.1 + ij.2 * w) 0,
              ((ij.1 : ℚ) * res + ox, (ij.2 : ℚ) * res + oy)))) :=
          List.mem_map.mpr ⟨_, hm, rfl⟩
        have heq : ((jc : ℚ) : ℚ) * res + oy = ((h - 1 : ℕ) : ℚ) * res + oy := by
          rw [hjc0, hhh]
        rw [← heq]
        exact hy
    · intro y hy
      rcases htaily y hy with ⟨j, hj, rfl⟩
      have hcast : (j : ℚ) ≤ ((h - 1 : ℕ) : ℚ) := by
        exact_mod_cast Nat.le_sub_one_of_lt hj
      nlinarith [hres.le]
  have hminx := congrArg Prod.fst hxpair
  have hmaxx := congrArg Prod.snd hxpair
  have hminy := congrArg Prod.fst hypair
  have hmaxy := congrArg Prod.snd hypair
  dsimp only at hminx hmaxx hminy hmaxy
  rw [hMx] at hmaxx
  rw [hMy] at hmaxy
  have hox0 : ((0 : ℕ) : ℚ) * res + ox = ox := by push_cast; ring
  have hoy0 : ((0 : ℕ) : ℚ) * res + oy = oy := by push_cast; ring
  refine ⟨?_, by rw [hA, hminx, hox0], by rw [hA, hminy, hoy0]⟩
  -- the final dictionary: every known visit freshly appended, in visit order
  have hgrid : (visitFold 70 initState (cellVisits d res ox oy h w)).grid =
      (knownVisits (cellVisits d res ox oy h w)).map
        (fun e => ((e.2.1, e.2.2), decide (70 < e.1))) := by
    rw [visitFold_grid, foldl_dictStep_fresh 70
      (knownVisits (cellVisits d res ox oy h w)) initState.grid (fun e _ => rfl)
      (cellVisits_coords_nodup d res ox oy h w hres.ne')]
    rfl
  have hv : validInputs [d] [res] [(ox, oy)] [(h, w)] := by
    refine ⟨by simp, by simp, by simp, ?_⟩
    intro k hk
    have hk0 : k = 0 := by simp at hk; omega
    subst hk0
    simpa using hlen
  have hst := mergeState_eq [d] [res] [(ox, oy)] [(h, w)] 70 hv
  rw [if_neg (by simp : ¬ ([d].length = 0))] at hst
  rw [show ([res].getD ([d].length - 1) 0) = res from by simp] at hst
  rw [hA] at hst
  -- the output-size arithmetic
  have hhy : pyRound (|((h - 1 : ℕ) : ℚ) * res + oy - (((0 : ℕ) : ℚ) * res + oy)| / res)
      = ((h - 1 : ℕ) : ℤ) := by
    have h1 : ((h - 1 : ℕ) : ℚ) * res + oy - (((0 : ℕ) : ℚ) * res + oy)
        = ((h - 1 : ℕ) : ℚ) * res := by push_cast; ring
    rw [h1, abs_of_nonneg (mul_nonneg (Nat.cast_nonneg _) hres.le),
      mul_div_cancel_right₀ _ hres.ne']
    exact pyRound_natCast _
  have hwx : pyRound (|((w - 1 : ℕ) : ℚ) * res + ox - (((0 : ℕ) : ℚ) * res + ox)| / res)
      = ((w - 1 : ℕ) : ℤ) := by
    have h1 : ((w - 1 : ℕ) : ℚ) * res + ox - (((0 : ℕ) : ℚ) * res + ox)
        = ((w - 1 : ℕ) : ℚ) * res := by push_cast; ring
    rw [h1, abs_of_nonneg (mul_nonneg (Nat.cast_nonneg _) hres.le),
      mul_div_cancel_right₀ _ hres.ne']
    exact pyRound_natCast _
  -- index characterization of the dictionary entries
  have hEchar : ∀ en ∈ (knownVisits (cellVisits d res ox oy h w)).map
      (fun e => ((e.2.1, e.2.2), decide (70 < e.1))),
      ∃ i j, i < w ∧ j < h ∧ d.getD (i + j * w) 0 ≠ -1 ∧
        en = (((i : ℚ) * res + ox, (j : ℚ) * res + oy),
          decide (70 < d.getD (i + j * w) 0)) ∧
        entryRow res (((0 : ℕ) : ℚ) * res + oy) en = (j : ℤ) ∧
        entryCol res (((0 : ℕ) : ℚ) * res + ox) en = (i : ℤ) := by
    intro en hen
    rcases List.mem_map.mp hen with ⟨e, he, rfl⟩
    rcases knownVisits_cellVisits_mem he with ⟨i, j, hi, hj, rfl, hk⟩
    refine ⟨i, j, hi, hj, hk, rfl, ?_, ?_⟩
    · exact pyRound_cell_offset res oy hres.ne' j
    · exact pyRound_cell_offset res ox hres.ne' i
  -- the rasterization succeeds
  obtain ⟨img2, hras⟩ : ∃ img2,
      rasterize res (((0 : ℕ) : ℚ) * res + ox) (((0 : ℕ) : ℚ) * res + oy)
        ((knownVisits (cellVisits d res ox oy h w)).map
          (fun e => ((e.2.1, e.2.2), decide (70 < e.1))))
        (List.replicate h (List.replicate w (-1))) = .ok img2 := by
    apply rasterize_ok_of_inrange
    intro e he
    rcases hEchar e he with ⟨i, j, hi, hj, hk, hee, hrow, hcol⟩
    rw [hrow, hcol]
    have htn : ((j : ℤ)).toNat = j := by omega
    have hgd : (List.replicate h (List.replicate w (-1 : ℤ))).getD ((j : ℤ)).toNat []
        = List.replicate w (-1 : ℤ) := by
      rw [htn]
      exact getD_replicate_lt h _ [] hj
    refine ⟨Int.natCast_nonneg j, ?_, Int.natCast_nonneg i, ?_⟩
    · rw [List.length_replicate]
      exact_mod_cast hj
    · rw [hgd, List.length_replicate]
      exact_mod_cast hi
  obtain ⟨hlen2, hrows2⟩ := rasterize_shape _ _ _ _ hras
  rw [List.length_replicate] at hlen2
  have hrowlenD : ∀ n, n < h → (img2.getD n []).length = w := by
    intro n hn
    rw [hrows2 n, getD_replicate_lt h _ [] hn, List.length_replicate]
  -- key uniqueness of the entry list
  have hkeysE : (((knownVisits (cellVisits d res ox oy h w)).map
      (fun e => ((e.2.1, e.2.2), decide (70 < e.1)))).map Prod.fst).Nodup := by
    rw [List.map_map]
    exact cellVisits_coords_nodup d res ox oy h w hres.ne'
  -- per-cell value of the output
  have hcell : ∀ rr cc, rr < h → cc < w →
      cellD img2 rr cc = thresholdVal 70 (d.getD (cc + rr * w) 0) := by
    intro rr cc hrr hcc
    by_cases hkc2 : d.getD (cc + rr * w) 0 = -1
    · -- unknown cell: no entry targets it, the -1 fill survives
      have hnw := rasterize_not_written res _ _ hras rr cc ?_
      · rw [hnw, cellD_replicate, if_pos ⟨hrr, hcc⟩, thresholdVal, if_pos hkc2]
      · intro e he
        rcases hEchar e he with ⟨i, j, hi, hj, hk, hee, hrow, hcol⟩
        rw [hrow, hcol]
        refine ⟨Int.natCast_nonneg j, Int.natCast_nonneg i, ?_⟩
        intro hpair
        have h1 := congrArg Prod.fst hpair
        have h2 := congrArg Prod.snd hpair
        dsimp only at h1 h2
        have hj' : j = rr := by omega
        have hi' : i = cc := by omega
        subst hj' hi'
        exact hk hkc2
    · -- known cell: exactly one entry targets it, carrying the thresholded value
      have he0 := knownVisits_cellVisits_intro d res ox oy h w hcc hrr hkc2
      have hen0 : (((cc : ℚ) * res + ox, (rr : ℚ) * res + oy),
          decide (70 < d.getD (cc + rr * w) 0)) ∈
          (knownVisits (cellVisits d res ox oy h w)).map
            (fun e => ((e.2.1, e.2.2), decide (70 < e.1))) :=
        List.mem_map_of_mem _ he0
      obtain ⟨l1, l2, hsplit⟩ := List.append_of_mem hen0
      have hnotin : (((cc : ℚ) * res + ox, (rr : ℚ) * res + oy)) ∉
          l2.map Prod.fst := by
        have hnd := hkeysE
        rw [hsplit, List.map_append, List.map_cons] at hnd
        exact (List.nodup_cons.mp
          (List.Nodup.sublist (List.sublist_append_right _ _) hnd)).1
      have hrow0 : entryRow res (((0 : ℕ) : ℚ) * res + oy)
          (((cc : ℚ) * res + ox, (rr : ℚ) * res + oy),
            decide (70 < d.getD (cc + rr * w) 0)) = (rr : ℤ) :=
        pyRound_cell_offset res oy hres.ne' rr
      have hcol0 : entryCol res (((0 : ℕ) : ℚ) * res + ox)
          (((cc : ℚ) * res + ox, (rr : ℚ) * res + oy),
            decide (70 < d.getD (cc + rr * w) 0)) = (cc : ℤ) :=
        pyRound_cell_offset res ox hres.ne' cc
      have hl2 : ∀ e ∈ l2, 0 ≤ entryRow res (((0 : ℕ) : ℚ) * res + oy) e ∧
          0 ≤ entryCol res (((0 : ℕ) : ℚ) * res + ox) e ∧
          ((entryRow res (((0 : ℕ) : ℚ) * res + oy) e).toNat,
            (entryCol res (((0 : ℕ) : ℚ) * res + ox) e).toNat) ≠
          ((entryRow res (((0 : ℕ) : ℚ) * res + oy)
              (((cc : ℚ) * res + ox, (rr : ℚ) * res + oy),
                decide (70 < d.getD (cc + rr * w) 0))).toNat,
            (entryCol res (((0 : ℕ) : ℚ) * res + ox)
              (((cc : ℚ) * res + ox, (rr : ℚ) * res + oy),
                decide (70 < d.getD (cc + rr * w) 0))).toNat) := by
        intro e he2
        have heE : e ∈ (knownVisits (cellVisits d res ox oy h w)).map
            (fun e => ((e.2.1, e.2.2), decide (70 < e.1))) := by
          rw [hsplit]
          exact List.mem_append_right _ (List.mem_cons_of_mem _ he2)
        rcases hEchar e heE with ⟨i, j, hi, hj, hk, hee, hrow, hcol⟩
        refine ⟨hrow ▸ Int.natCast_nonneg j, hcol ▸ Int.natCast_nonneg i, ?_⟩
        rw [hrow, hcol, hrow0, hcol0]
        intro hpair
        have h1 := congrArg Prod.fst hpair
        have h2 := congrArg Prod.snd hpair
        dsimp only at h1 h2
        have hj' : j = rr := by omega
        have hi' : i = cc := by omega
        apply hnotin
        have hfst : e.1 = (((cc : ℚ) * res + ox, (rr : ℚ) * res + oy)) := by
          rw [hee, hi', hj']
        rw [← hfst]
        exact List.mem_map_of_mem Prod.fst he2
      have hlw := rasterize_last_writer res (((0 : ℕ) : ℚ) * res + ox)
        (((0 : ℕ) : ℚ) * res + oy) l1 l2 _ (hsplit ▸ hras)
        (hrow0 ▸ Int.natCast_nonneg rr) (hcol0 ▸ Int.natCast_nonneg cc) hl2
      rw [hrow0, hcol0] at hlw
      have htr : ((rr : ℤ)).toNat = rr := by omega
      have htc : ((cc : ℤ)).toNat = cc := by omega
      rw [htr, htc] at hlw
      rw [hlw, thresholdVal, if_neg hkc2]
      by_cases h70 : (70 : ℤ) < d.getD (cc + rr * w) 0
      · rw [if_pos h70, if_pos (decide_eq_true h70)]
      · rw [if_neg h70, decide_eq_false h70]
        rfl
  -- the output array is exactly the thresholded input grid
  have hfin : img2 = singleExpected d h w 70 := by
    apply List.ext_getElem
    · rw [hlen2]
      simp [singleExpected]
    · intro n h1 h2
      have hn : n < h := by rw [hlen2] at h1; exact h1
      have hgetn : img2.getD n [] = img2[n] := List.getD_eq_getElem img2 [] h1
      have hrowlen : (img2.getD n []).length = w := hrowlenD n hn
      apply List.ext_getElem
      · rw [← hgetn, hrowlen]
        simp [singleExpected]
      · intro m hm1 hm2
        have hmw : m < w := by
          rw [← hgetn, hrowlen] at hm1
          exact hm1
        have hc := hcell n m hn hmw
        unfold cellD at hc
        rw [hgetn] at hc
        rw [List.getD_eq_getElem img2[n] (-1)
          (by rw [← hgetn, hrowlen]; exact hmw)] at hc
        rw [hc]
        simp [singleExpected]
  -- assemble the run of `merge_maps`
  rw [merge_maps, hst]
  dsimp only
  rw [if_neg hres.ne']
  rw [hminx, hminy, hmaxx, hmaxy]
  dsimp only
  rw [hhy, hwx]
  rw [if_neg (by omega : ¬ (((h - 1 : ℕ) : ℤ) + 1 < 0 ∨ ((w - 1 : ℕ) : ℤ) + 1 < 0))]
  rw [show ((((h - 1 : ℕ) : ℤ) + 1)).toNat = h from by omega,
    show ((((w - 1 : ℕ) : ℤ) + 1)).toNat = w from by omega]
  rw [hgrid, hras]
  dsimp only
  rw [hfin]

theorem C5_single_source_merge_witness :
    merge_maps [[0, 100, -1, 30]] [1] [(5, 6)] [(2, 2)] 70 =
      .ok (singleExpected [0, 100, -1, 30] 2 2 70) ∧
    (visitFold 70 initState
      (allVisits [[0, 100, -1, 30]] [1] [(5, 6)] [(2, 2)])).min_x = some 5 ∧
    (visitFold 70 initState
      (allVisits [[0, 100, -1, 30]] [1] [(5, 6)] [(2, 2)])).min_y = some 6 :=
  C5_single_source_merge [0, 100, -1, 30] 2 2 1 5 6 (by norm_num) rfl
    (by decide) ⟨1, by decide, by decide⟩ ⟨0, by decide, by decide⟩ (by decide)

/-! ## Claim theorems: merging -/

/-- C10: when every cell of every source is `-1` (with well-formed,
non-empty inputs), no coordinate is visited, the scan state keeps its empty
dictionary and sentinel bounds, and the output-size computation fails
(`round` of an infinite extent, or the division when the last resolution is
zero) instead of producing a merged grid. -/
theorem C10_all_unknown_fails (d : List (List ℤ)) (r : List ℚ) (o : List (ℚ × ℚ))
    (s : List (ℕ × ℕ)) (t : ℤ) (hv : validInputs d r o s) (hne : d ≠ [])
    (hall : ∀ k < d.length, ∀ v ∈ d.getD k [], v = -1) :
    mergeState d r o s t = .ok (initState, some (r.getD (d.length - 1) 0)) ∧
    ((r.getD (d.length - 1) 0 = 0 ∧
        merge_maps d r o s t = .error .zeroDivisionError) ∨
      (r.getD (d.length - 1) 0 ≠ 0 ∧
        merge_maps d r o s t = .error .overflowError)) := by
  have hst := mergeState_eq d r o s t hv
  rw [visitFold_all_unknown t initState _
    (allVisits_all_unknown d r o s hv.2.2.2 hall)] at hst
  rw [if_neg (show ¬ (d.length = 0) from fun h0 => hne (List.length_eq_zero.mp h0))] at hst
  refine ⟨hst, ?_⟩
  by_cases hz : r.getD (d.length - 1) 0 = 0
  · left
    refine ⟨hz, ?_⟩
    rw [merge_maps, hst]
    dsimp only
    rw [if_pos hz]
  · right
    refine ⟨hz, ?_⟩
    rw [merge_maps, hst]
    dsimp only
    rw [if_neg hz]
    rfl

/-- Witness for C10 at a concrete all-unknown source. -/
theorem C10_all_unknown_fails_witness :
    mergeState [[-1, -1]] [1] [(0, 0)] [(1, 2)] 70 = .ok (initState, some 1) ∧
    (((1 : ℚ) = 0 ∧ merge_maps [[-1, -1]] [1] [(0, 0)] [(1, 2)] 70 =
        .error .zeroDivisionError) ∨
      ((1 : ℚ) ≠ 0 ∧ merge_maps [[-1, -1]] [1] [(0, 0)] [(1, 2)] 70 =
        .error .overflowError)) :=
  C10_all_unknown_fails [[-1, -1]] [1] [(0, 0)] [(1, 2)] 70
    ⟨by decide, by decide, by decide, by decide⟩ (by decide) (by decide)

/-- C9 (amended): the division by a zero resolution only happens at the
output-size computation, which uses the `resolution` variable as left by the
last loop iteration; so `merge_maps` fails with `ZeroDivisionError` exactly
when the *last* source's resolution is zero (zero resolutions at earlier
positions are only used in multiplications and raise nothing). -/
theorem C9_zero_resolution_last_only (d : List (List ℤ)) (r : List ℚ)
    (o : List (ℚ × ℚ)) (s : List (ℕ × ℕ)) (t : ℤ)
    (hv : validInputs d r o s) (hne : d ≠ [])
    (hz : r.getD (d.length - 1) 0 = 0) :
    merge_maps d r o s t = .error .zeroDivisionError := by
  have hst := mergeState_eq d r o s t hv
  rw [if_neg (show ¬ (d.length = 0) from fun h0 => hne (List.length_eq_zero.mp h0))] at hst
  rw [merge_maps, hst]
  dsimp only
  rw [if_pos hz]

/-- Witness for C9's amended statement: a single source with resolution 0. -/
theorem C9_zero_resolution_last_only_witness :
    merge_maps [[0, 0]] [0] [(0, 0)] [(1, 2)] 70 = .error .zeroDivisionError :=
  C9_zero_resolution_last_only [[0, 0]] [0] [(0, 0)] [(1, 2)] 70
    ⟨by decide, by decide, by decide, by decide⟩ (by decide) (by decide)

/-- C9 counterexample: a zero resolution in a non-last position does not make
`merge_maps` fail — the call below has `resolution_0 = 0` yet returns a grid. -/
theorem C9_counterexample_zero_resolution_not_last :
    merge_maps [[0, 0], [0]] [0, 1] [(0, 0), (2, 0)] [(1, 2), (1, 1)] 70 =
      .ok [[0, -1, 0]] := by
  with_unfolding_all rfl

/-- C8 (amended): `merge_maps` performs no arity check.  It fails (with a
plain `IndexError`) when one of the three frame lists is shorter than the
grid list, and with `NameError` when there are no grids at all; frame lists
*longer* than the grid list are silently accepted. -/
theorem C8_arity (d : List (List ℤ)) (r : List ℚ) (o : List (ℚ × ℚ))
    (s : List (ℕ × ℕ)) (t : ℤ) :
    (r.length < d.length ∨ o.length < d.length ∨ s.length < d.length →
      merge_maps d r o s t = .error .indexError) ∧
    (d = [] → merge_maps d r o s t = .error .nameError) := by
  constructor
  · intro hshort
    cases hms : mergeState d r o s t with
    | error e =>
      have he := mergeLoop_error t d r o s _ _ hms
      rw [merge_maps, hms, he]
    | ok res =>
      exfalso
      have hlen := mergeLoop_ok_lengths t d r o s _ _ hms
      rcases hshort with hs | hs | hs
      · exact absurd (hlen r.length (List.mem_range.mpr hs)).1 (lt_irrefl _)
      · exact absurd (hlen o.length (List.mem_range.mpr hs)).2.1 (lt_irrefl _)
      · exact absurd (hlen s.length (List.mem_range.mpr hs)).2.2 (lt_irrefl _)
  · intro hd
    subst hd
    rfl

/-- Witness for C8: two grids with frames for only one source fail. -/
theorem C8_arity_witness :
    merge_maps [[0], [0]] [1] [(0, 0)] [(1, 1)] 70 = .error .indexError :=
  (C8_arity [[0], [0]] [1] [(0, 0)] [(1, 1)] 70).1 (by decide)

/-- C8 counterexample: frame lists longer than the grid list are accepted and
the call returns a result, refuting "no unequal-length call returns a
result". -/
theorem C8_counterexample_longer_frames_accepted :
    merge_maps [[0, 0]] [1, 99] [(0, 0), (9, 9)] [(1, 2), (5, 5)] 70 =
      .ok [[0, 0]] := by
  with_unfolding_all rfl

/-- C3 (evaluating the code at the failing input): merging the single 1×1
grid `[[0]]` visits the world coordinate `(0,0)`, yet the `elif` in the
bounds update leaves `max_x` and `max_y` at `-inf` (the visit only updated
the minima), so the bounds do not equal the true bounding box and the
subsequent `round(inf)` fails. -/
theorem C3_bounds_miss_max_on_failing_input :
    mergeState [[0]] [1] [(0, 0)] [(1, 1)] 70 =
      .ok (⟨[((0, 0), false)], some 0, some 0, none, none⟩, some 1) ∧
    merge_maps [[0]] [1] [(0, 0)] [(1, 1)] 70 = .error .overflowError := by
  exact ⟨by with_unfolding_all rfl, by with_unfolding_all rfl⟩

/-- C4 counterexample: a fully valid input (equal lengths, `N = 1`, positive
resolution, a non-unknown cell) on which `merge_maps` raises instead of
returning a merged grid. -/
theorem C4_counterexample_valid_input_raises :
    merge_maps [[5]] [1] [(0, 0)] [(1, 1)] 70 = .error .overflowError := by
  with_unfolding_all rfl

/-- C1 (amended): obstacle precedence holds in the conflict-resolution
dictionary: whatever the processing order of the two sources, a `> threshold`
cell always leaves `True` recorded at its exact world coordinate `p`.  The
merged *output* cell at `p` equals `100` under the additional hypothesis that
no other visited world coordinate rounds onto the same output cell (the
rasterization loop lets any later colliding entry overwrite the cell). -/
theorem C1_obstacle_precedence (d1 d2 : List ℤ) (r1 r2 : ℚ) (o1 o2 : ℚ × ℚ)
    (s1 s2 : ℕ × ℕ) (t : ℤ) (p : ℚ × ℚ) (mnx mny : ℚ) (img : List (List ℤ))
    (hv : validInputs [d1, d2] [r1, r2] [o1, o2] [s1, s2])
    (hobs : ∃ e ∈ allVisits [d1, d2] [r1, r2] [o1, o2] [s1, s2],
      e.1 ≠ -1 ∧ t < e.1 ∧ (e.2.1, e.2.2) = p)
    (hfree : ∃ e ∈ allVisits [d1, d2] [r1, r2] [o1, o2] [s1, s2],
      e.1 ≠ -1 ∧ e.1 ≤ t ∧ (e.2.1, e.2.2) = p) :
    lookupDict p (visitFold t initState
      (allVisits [d1, d2] [r1, r2] [o1, o2] [s1, s2])).grid = some true ∧
    (merge_maps [d1, d2] [r1, r2] [o1, o2] [s1, s2] t = .ok img → 0 < r2 →
      lmin (visitXs (allVisits [d1, d2] [r1, r2] [o1, o2] [s1, s2])) = some mnx →
      lmin (visitYs (allVisits [d1, d2] [r1, r2] [o1, o2] [s1, s2])) = some mny →
      (∀ q ∈ visitCoords (allVisits [d1, d2] [r1, r2] [o1, o2] [s1, s2]), q ≠ p →
        cellIndex (mnx, mny) r2 q ≠ cellIndex (mnx, mny) r2 p) →
      get2dZ img (cellIndex (mnx, mny) r2 p) = 100) := by
  have hdict : lookupDict p (visitFold t initState
      (allVisits [d1, d2] [r1, r2] [o1, o2] [s1, s2])).grid = some true := by
    rw [visitFold_grid]
    obtain ⟨e, he, h1, h2, h3⟩ := hobs
    exact foldl_dictStep_establish_true t
      (List.mem_filter.mpr ⟨he, by simpa using h1⟩) h2 h3 _
  refine ⟨hdict, ?_⟩
  intro hok hr2 hmnx hmny hnocol
  exact merged_cell_value [d1, d2] [r1, r2] [o1, o2] [s1, s2] t p true mnx mny img
    hv hok hr2 hmnx hmny hdict hnocol

/-- Witness for C1 at two concrete 1×2 sources disagreeing at `(0,0)`,
processed obstacle-first; the mirror-order instance is covered by the same
theorem applied with the sources swapped. -/
theorem C1_obstacle_precedence_witness :
    lookupDict (0, 0) (visitFold 70 initState
      (allVisits [[100, 0], [10, 10]] [1, 1] [(0, 0), (0, 0)]
        [(1, 2), (1, 2)])).grid = some true ∧
    get2dZ [[100, 0]] (cellIndex (0, 0) 1 (0, 0)) = 100 := by
  have h := C1_obstacle_precedence [100, 0] [10, 10] 1 1 (0, 0) (0, 0) (1, 2) (1, 2)
    70 (0, 0) 0 0 [[100, 0]]
    ⟨by decide, by decide, by decide, by decide⟩
    ⟨(100, (0, 0)), by with_unfolding_all decide, by decide, by decide, by decide⟩
    ⟨(10, (0, 0)), by with_unfolding_all decide, by decide, by decide, by decide⟩
  exact ⟨h.1, h.2 (by with_unfolding_all rfl) (by norm_num)
    (by with_unfolding_all rfl) (by with_unfolding_all rfl)
    (by with_unfolding_all decide)⟩

/-- C1 counterexample: sources `B = [10,10]` (resolution 2/5) and
`A = [100,0]` (resolution 1), both at origin `(0,0)`.  `A` reports an
obstacle at the exact coordinate `(0,0)` and `B` reports free there, yet the
merged output cell of `(0,0)` is `0`: `B`'s extra coordinate `(2/5, 0)`
rounds onto the same output cell and overwrites it later in the
rasterization loop. -/
theorem C1_counterexample_collision_overwrites_obstacle :
    merge_maps [[10, 10], [100, 0]] [2/5, 1] [(0, 0), (0, 0)] [(1, 2), (1, 2)] 70 =
      .ok [[0, 0]] ∧
    get2dZ [[0, 0]] (cellIndex (0, 0) 1 (0, 0)) = 0 := by
  exact ⟨by with_unfolding_all rfl, by with_unfolding_all rfl⟩

/-- C2 (amended): a free observation records `False` at its coordinate only
when the key is absent, so it never overwrites anything; with every visit of
`p` free (`≤ threshold`), the dictionary holds `False` at `p` in either
processing order.  The merged *output* cell is `0` under the additional
hypothesis that no other visited coordinate rounds onto the same output cell
(otherwise a colliding later entry can overwrite it, and swapping the order
can change the result). -/
theorem C2_free_first_writer (d1 d2 : List ℤ) (r1 r2 : ℚ) (o1 o2 : ℚ × ℚ)
    (s1 s2 : ℕ × ℕ) (t : ℤ) (p : ℚ × ℚ) (mnx mny : ℚ) (img : List (List ℤ))
    (hv : validInputs [d1, d2] [r1, r2] [o1, o2] [s1, s2])
    (hall : ∀ e ∈ allVisits [d1, d2] [r1, r2] [o1, o2] [s1, s2],
      (e.2.1, e.2.2) = p → e.1 ≠ -1 → e.1 ≤ t)
    (hknown : ∃ e ∈ allVisits [d1, d2] [r1, r2] [o1, o2] [s1, s2],
      e.1 ≠ -1 ∧ (e.2.1, e.2.2) = p) :
    lookupDict p (visitFold t initState
      (allVisits [d1, d2] [r1, r2] [o1, o2] [s1, s2])).grid = some false ∧
    (merge_maps [d1, d2] [r1, r2] [o1, o2] [s1, s2] t = .ok img → 0 < r2 →
      lmin (visitXs (allVisits [d1, d2] [r1, r2] [o1, o2] [s1, s2])) = some mnx →
      lmin (visitYs (allVisits [d1, d2] [r1, r2] [o1, o2] [s1, s2])) = some mny →
      (∀ q ∈ visitCoords (allVisits [d1, d2] [r1, r2] [o1, o2] [s1, s2]), q ≠ p →
        cellIndex (mnx, mny) r2 q ≠ cellIndex (mnx, mny) r2 p) →
      get2dZ img (cellIndex (mnx, mny) r2 p) = 0) := by
  have hdict : lookupDict p (visitFold t initState
      (allVisits [d1, d2] [r1, r2] [o1, o2] [s1, s2])).grid = some false := by
    rw [visitFold_grid]
    obtain ⟨e0, he0, h1, h3⟩ := hknown
    have hpres := foldl_dictStep_present t
      (E := knownVisits (allVisits [d1, d2] [r1, r2] [o1, o2] [s1, s2]))
      (List.mem_filter.mpr ⟨he0, by simpa using h1⟩) h3 initState.grid
    have hnf := foldl_dictStep_noneOrFalse t
      (E := knownVisits (allVisits [d1, d2] [r1, r2] [o1, o2] [s1, s2]))
      (fun e he hp => hall e (List.mem_of_mem_filter he) hp
        (by simpa using List.of_mem_filter he))
      (g := initState.grid) (Or.inl rfl)
    rcases hnf with hn | hf
    · rw [hn] at hpres; cases hpres
    · exact hf
  refine ⟨hdict, ?_⟩
  intro hok hr2 hmnx hmny hnocol
  exact merged_cell_value [d1, d2] [r1, r2] [o1, o2] [s1, s2] t p false mnx mny img
    hv hok hr2 hmnx hmny hdict hnocol

/-- Witness for C2 at two concrete 1×2 all-free sources sharing `(0,0)`. -/
theorem C2_free_first_writer_witness :
    lookupDict (0, 0) (visitFold 70 initState
      (allVisits [[10, 0], [20, 30]] [1, 1] [(0, 0), (0, 0)]
        [(1, 2), (1, 2)])).grid = some false ∧
    get2dZ [[0, 0]] (cellIndex (0, 0) 1 (0, 0)) = 0 := by
  have h := C2_free_first_writer [10, 0] [20, 30] 1 1 (0, 0) (0, 0) (1, 2) (1, 2)
    70 (0, 0) 0 0 [[0, 0]]
    ⟨by decide, by decide, by decide, by decide⟩
    (by with_unfolding_all decide)
    ⟨(10, (0, 0)), by with_unfolding_all decide, by decide, by decide⟩
  exact ⟨h.1, h.2 (by with_unfolding_all rfl) (by norm_num)
    (by with_unfolding_all rfl) (by with_unfolding_all rfl)
    (by with_unfolding_all decide)⟩

/-- C2 counterexample: sources `B = [10,90]` (resolution 2/5) and `A = [10]`
(resolution 1), origins `(0,0)`.  Both report `≤ 70` at the exact coordinate
`(0,0)`, yet in this order the merged cell of `(0,0)` is `100`, not `0`:
`B`'s obstacle at `(2/5, 0)` rounds onto the same output cell.  (In the
swapped order the cell is `0`, so the order does change the result.) -/
theorem C2_counterexample_collision_changes_free_cell :
    merge_maps [[10, 90], [10]] [2/5, 1] [(0, 0), (0, 0)] [(1, 2), (1, 1)] 70 =
      .ok [[100]] ∧
    get2dZ [[100]] (cellIndex (0, 0) 1 (0, 0)) = 100 := by
  exact ⟨by with_unfolding_all rfl, by with_unfolding_all rfl⟩

/-- C4 (amended): `merge_maps` returns only the merged array (the resolution
and origin are used internally but are not part of the return value).  On
well-formed inputs with `N ≥ 1`, a positive last resolution, and — because of
the `elif` in the bounds update this is a real extra condition — running max
bounds that attain true maxima of the visited coordinates, the merge
succeeds; the rasterization origin is the pair of true minima `(mnx, mny)`
(which the running minima always equal) and its pitch and extent come from
the last processed source's resolution. -/
theorem C4_merge_returns_array (d : List (List ℤ)) (r : List ℚ) (o : List (ℚ × ℚ))
    (s : List (ℕ × ℕ)) (t : ℤ) (mnx mny Mx My : ℚ)
    (hv : validInputs d r o s) (hne : d ≠ [])
    (hrl : 0 < r.getD (d.length - 1) 0)
    (hmnx : lmin (visitXs (allVisits d r o s)) = some mnx)
    (hmny : lmin (visitYs (allVisits d r o s)) = some mny)
    (hMx : (visitFold t initState (allVisits d r o s)).max_x = some Mx)
    (hMy : (visitFold t initState (allVisits d r o s)).max_y = some My)
    (hMxT : ∀ x ∈ visitXs (allVisits d r o s), x ≤ Mx)
    (hMyT : ∀ y ∈ visitYs (allVisits d r o s), y ≤ My) :
    (visitFold t initState (allVisits d r o s)).min_x = some mnx ∧
    (visitFold t initState (allVisits d r o s)).min_y = some mny ∧
    ∃ img, merge_maps d r o s t = .ok img ∧
      img.length = (pyRound ((My - mny) / r.getD (d.length - 1) 0)).toNat + 1 ∧
      ∀ row ∈ img, row.length =
        (pyRound ((Mx - mnx) / r.getD (d.length - 1) 0)).toNat + 1 := by
  have hmnx' : (visitFold t initState (allVisits d r o s)).min_x = some mnx := by
    rw [visitFold_init_min_x, hmnx]
  have hmny' : (visitFold t initState (allVisits d r o s)).min_y = some mny := by
    rw [visitFold_init_min_y, hmny]
  refine ⟨hmnx', hmny', ?_⟩
  have hMxm : Mx ∈ visitXs (allVisits d r o s) := visitFold_init_max_x_mem t _ hMx
  have hMym : My ∈ visitYs (allVisits d r o s) := visitFold_init_max_y_mem t _ hMy
  have hxle : mnx ≤ Mx := lmin_le_of_mem hmnx hMxm
  have hyle : mny ≤ My := lmin_le_of_mem hmny hMym
  have hst := mergeState_eq d r o s t hv
  rw [if_neg (show ¬ (d.length = 0) from fun h0 => hne (List.length_eq_zero.mp h0))] at hst
  have habsy : |My - mny| = My - mny := abs_of_nonneg (by linarith)
  have habsx : |Mx - mnx| = Mx - mnx := abs_of_nonneg (by linarith)
  have hh0 : 0 ≤ pyRound ((My - mny) / r.getD (d.length - 1) 0) :=
    pyRound_nonneg (div_nonneg (by linarith) hrl.le)
  have hw0 : 0 ≤ pyRound ((Mx - mnx) / r.getD (d.length - 1) 0) :=
    pyRound_nonneg (div_nonneg (by linarith) hrl.le)
  obtain ⟨img2, hras⟩ := rasterize_ok_of_inrange (r.getD (d.length - 1) 0) mnx mny
    (visitFold t initState (allVisits d r o s)).grid
    (List.replicate (pyRound ((My - mny) / r.getD (d.length - 1) 0) + 1).toNat
      (List.replicate (pyRound ((Mx - mnx) / r.getD (d.length - 1) 0) + 1).toNat (-1)))
    (by
      intro en hen
      have hq := visitFold_grid_keys t _ en hen
      obtain ⟨hqx, hqy⟩ := visitCoords_mem _ hq
      have h1 : 0 ≤ entryRow (r.getD (d.length - 1) 0) mny en :=
        pyRound_nonneg (div_nonneg (sub_nonneg.mpr (lmin_le_of_mem hmny hqy)) hrl.le)
      have h2 : entryRow (r.getD (d.length - 1) 0) mny en ≤
          pyRound ((My - mny) / r.getD (d.length - 1) 0) :=
        pyRound_mono ((div_le_div_iff_of_pos_right hrl).mpr (by have := hMyT _ hqy; linarith))
      have h3 : 0 ≤ entryCol (r.getD (d.length - 1) 0) mnx en :=
        pyRound_nonneg (div_nonneg (sub_nonneg.mpr (lmin_le_of_mem hmnx hqx)) hrl.le)
      have h4 : entryCol (r.getD (d.length - 1) 0) mnx en ≤
          pyRound ((Mx - mnx) / r.getD (d.length - 1) 0) :=
        pyRound_mono ((div_le_div_iff_of_pos_right hrl).mpr (by have := hMxT _ hqx; linarith))
      refine ⟨h1, ?_, h3, ?_⟩
      · rw [List.length_replicate]
        omega
      · rw [getD_replicate_lt _ _ _ (by omega), List.length_replicate]
        omega)
  refine ⟨img2, ?_, ?_, ?_⟩
  · rw [merge_maps, hst]
    dsimp only
    rw [if_neg hrl.ne', hmnx', hmny', hMx, hMy]
    dsimp only
    rw [habsy, habsx]
    rw [if_neg (by push_neg; omega)]
    rw [hras]
  · obtain ⟨hlen2, -⟩ := rasterize_shape _ _ _ _ hras
    rw [hlen2, List.length_replicate]
    omega
  · intro row hrow
    obtain ⟨hlen2, hrows⟩ := rasterize_shape _ _ _ _ hras
    rcases List.mem_iff_getElem.mp hrow with ⟨k, hk, hkrow⟩
    have hrl2 : row.length = (img2.getD k []).length := by
      rw [List.getD_eq_getElem img2 [] hk, hkrow]
    rw [hrl2, hrows k]
    have hk2 : k < (pyRound ((My - mny) / r.getD (d.length - 1) 0) + 1).toNat := by
      rw [hlen2, List.length_replicate] at hk
      exact hk
    rw [getD_replicate_lt _ _ _ hk2, List.length_replicate]
    omega

/-- Witness for C4's amended statement at a concrete single source. -/
theorem C4_merge_returns_array_witness :
    (visitFold 70 initState (allVisits [[0, 0]] [1] [(0, 0)] [(1, 2)])).min_x =
      some 0 ∧
    (visitFold 70 initState (allVisits [[0, 0]] [1] [(0, 0)] [(1, 2)])).min_y =
      some 0 ∧
    ∃ img, merge_maps [[0, 0]] [1] [(0, 0)] [(1, 2)] 70 = .ok img ∧
      img.length = (pyRound ((0 - 0) / (1 : ℚ))).toNat + 1 ∧
      ∀ row ∈ img, row.length = (pyRound ((1 - 0) / (1 : ℚ))).toNat + 1 :=
  C4_merge_returns_array [[0, 0]] [1] [(0, 0)] [(1, 2)] 70 0 0 1 0
    ⟨by decide, by decide, by decide, by decide⟩ (by decide)
    (by norm_num) (by with_unfolding_all rfl) (by with_unfolding_all rfl)
    (by with_unfolding_all rfl) (by with_unfolding_all rfl)
    (by with_unfolding_all decide) (by with_unfolding_all decide)

/-- C5 counterexample: a single-source merge (threshold 70) that does not
return the input re-expressed in its own frame — it raises instead. -/
theorem C5_counterexample_single_source_raises :
    merge_maps [[100]] [2] [(3, 4)] [(1, 1)] 70 = .error .overflowError := by
  with_unfolding_all rfl

end OccGrid
